import Mathlib

/-!
Verification development for the ChromaForge ASE editor core.

The definitions below are a shallow embedding of the TypeScript source:
  * the binary codec (`parseASE` / `createASEBuffer` from `ase-utils`),
  * the color conversion pipeline (`blockToRgb` and helpers from
    `color-utils.ts` and the color engine),
  * the hierarchical sort (`sortBlocksHierarchically` from the entry module).

Modelling conventions:
  * A byte buffer is a `List Nat` of bytes; `DataView` reads are partial
    (`Option`), mirroring the `RangeError` thrown on out-of-range access.
  * A JavaScript string is its list of UTF-16 code units (`List Nat`).
  * JavaScript numbers that only ever hold small integers are `Nat`.
  * Channel values in the codec are an abstract type `F` together with
    `toBits : F → Nat` (the bit pattern stored by `setFloat32`) and
    `ofBits : Nat → F` (the value recovered by `getFloat32`), so that
    `ofBits (toBits v)` is exactly "v rounded to float32".
  * Channel values in the color pipeline are rationals `ℚ`; the one
    transcendental operation, `Math.pow (v, 1/2.4)`, is a parameter.
-/

namespace Chroma

/-- The tag of a palette block, from `types.ts` (`'groupStart' | 'groupEnd' | 'color'`). -/
inductive BlockType where
  | groupStart
  | groupEnd
  | color
deriving DecidableEq

/-- One palette block, from `types.ts`.  All data fields are optional there,
so they are `Option` here.  `α` is the type of channel values. -/
structure Block (α : Type) where
  type : BlockType
  name : Option (List Nat)
  model : Option (List Nat)
  values : Option (List α)
  colorType : Option Nat
deriving DecidableEq

/-- The parsed document, from `types.ts` (`AseData`). -/
structure AseData (α : Type) where
  version : Nat × Nat
  blocks : List (Block α)
deriving DecidableEq

/-- JavaScript string truthiness: `undefined` and the empty string are falsy. -/
def jsStr (o : Option (List Nat)) : Option (List Nat) :=
  match o with
  | some s => if s = [] then none else some s
  | none => none

/-- Models `s || d` for a string `s` and default `d`. -/
def jsStrOr (o : Option (List Nat)) (d : List Nat) : List Nat :=
  match jsStr o with
  | some s => s
  | none => d

/-- Models `n || d` for a number `n`: `undefined` and `0` are falsy. -/
def jsNumOr (o : Option Nat) (d : Nat) : Nat :=
  match o with
  | some v => if v = 0 then d else v
  | none => d

/-! ### String constants (as UTF-16 / ASCII code unit lists) -/

/-- "ASEF" -/
def strASEF : List Nat := [65, 83, 69, 70]
/-- "RGB " (the 4-byte model tag) -/
def strRGBsp : List Nat := [82, 71, 66, 32]
/-- "CMYK" -/
def strCMYK : List Nat := [67, 77, 89, 75]
/-- "LAB " (the 4-byte model tag) -/
def strLABsp : List Nat := [76, 65, 66, 32]
/-- "Gray" -/
def strGray : List Nat := [71, 114, 97, 121]
/-- "RGB" (trimmed) -/
def strRGB : List Nat := [82, 71, 66]
/-- "LAB" (trimmed) -/
def strLAB : List Nat := [76, 65, 66]

/-! ### Byte-level primitives (`ase-utils` internal helpers) -/

/-- `u16`: the two big-endian bytes written by `DataView.setUint16`. -/
def u16bytes (v : Nat) : List Nat := [v / 256 % 256, v % 256]

/-- `u32`: the four big-endian bytes written by `DataView.setUint32`. -/
def u32bytes (v : Nat) : List Nat :=
  [v / 16777216 % 256, v / 65536 % 256, v / 256 % 256, v % 256]

/-- `strToBytes`: one byte per code unit (`Uint8Array` truncates mod 256). -/
def asciiBytes (s : List Nat) : List Nat := s.map (· % 256)

/-- `strToUTF16Bytes`: two big-endian bytes per UTF-16 code unit. -/
def utf16Bytes (s : List Nat) : List Nat := s.flatMap u16bytes

/-- `DataView.getUint16` (big-endian); `none` models the `RangeError`. -/
def readU16 (bs : List Nat) (off : Nat) : Option Nat := do
  let a ← bs[off]?
  let b ← bs[off + 1]?
  pure (256 * a + b)

/-- `DataView.getUint32` (big-endian). -/
def readU32 (bs : List Nat) (off : Nat) : Option Nat := do
  let a ← bs[off]?
  let b ← bs[off + 1]?
  let c ← bs[off + 2]?
  let d ← bs[off + 3]?
  pure (16777216 * a + 65536 * b + 256 * c + d)

/-- `getChar`: reads `n` bytes as single-byte characters. -/
def readChars (bs : List Nat) (off : Nat) : Nat → Option (List Nat)
  | 0 => some []
  | n + 1 => do
    let c ← bs[off]?
    let rest ← readChars bs (off + 1) n
    pure (c :: rest)

/-- Reads `n` UTF-16 code units (big-endian). -/
def readUnits (bs : List Nat) (off : Nat) : Nat → Option (List Nat)
  | 0 => some []
  | n + 1 => do
    let c ← readU16 bs off
    let rest ← readUnits bs (off + 2) n
    pure (c :: rest)

/-- `getUTF16String`: reads `len - 1` code units (the null terminator is
consumed by the caller advancing `len * 2` bytes, but not returned). -/
def getUTF16String (bs : List Nat) (off len : Nat) : Option (List Nat) :=
  readUnits bs off (len - 1)

/-- The two ways `parseASE` can fail: the explicit signature check, or a
`DataView` access past the end of the buffer. -/
inductive PErr where
  | rangeError
  | badSignature
deriving DecidableEq

/-- Lifts a `DataView` read into the parser: an out-of-range read throws. -/
def toExc {α : Type} : Option α → Except PErr α
  | some a => Except.ok a
  | none => Except.error PErr.rangeError

/-- Channel count derived from the model tag (`parseASE`, lines 36-38). -/
def channelsOf (model : List Nat) : Nat :=
  if model = strCMYK then 4
  else if model = strRGBsp ∨ model = strLABsp then 3
  else if model = strGray then 1
  else 0

section Codec

variable {F : Type} (toBits : F → Nat) (ofBits : Nat → F)

/-- Float32 round-tripping: the value recovered by `getFloat32` after
`setFloat32` stored `v`, i.e. `v` rounded to float32 precision. -/
def f32round (v : F) : F := ofBits (toBits v)

/-- Reads `n` float32 channel values (each 4 big-endian bytes). -/
def readFloats (bs : List Nat) (off : Nat) : Nat → Option (List F)
  | 0 => some []
  | n + 1 => do
    let w ← readU32 bs off
    let rest ← readFloats bs (off + 4) n
    pure (ofBits w :: rest)

/-- The per-block payload parser: given the block type and the offset just
past the 6-byte block header, returns the block produced (if any) and the
cursor position reached by field-by-field parsing.  The main loop discards
that cursor and seeks to the recorded end of block instead. -/
def parsePayload (bs : List Nat) (blockType off : Nat) :
    Except PErr (Option (Block F) × Nat) :=
  if blockType = 0xC001 then do
    let nameLen ← toExc (readU16 bs off)
    let name ← toExc (getUTF16String bs (off + 2) nameLen)
    pure (some ⟨BlockType.groupStart, some name, none, none, none⟩,
      off + 2 + nameLen * 2)
  else if blockType = 0xC002 then
    pure (some ⟨BlockType.groupEnd, none, none, none, none⟩, off)
  else if blockType = 0x0001 then do
    let nameLen ← toExc (readU16 bs off)
    let name ← toExc (getUTF16String bs (off + 2) nameLen)
    let o1 := off + 2 + nameLen * 2
    let model ← toExc (readChars bs o1 4)
    let n := channelsOf model
    let values ← toExc (readFloats ofBits bs (o1 + 4) n)
    let colorType ← toExc (readU16 bs (o1 + 4 + 4 * n))
    pure (some ⟨BlockType.color, some (name.filter (· ≠ 0)), some model,
      some values, some colorType⟩, o1 + 4 + 4 * n + 2)
  else
    pure (none, off)

/-- The block loop of `parseASE`: reads `count` blocks starting at `off`.
After each block the cursor is set to `blockStart + 6 + blockLength`
(`offset = endOfBlock`, line 55), ignoring where payload parsing stopped. -/
def parseBlocks (bs : List Nat) : Nat → Nat → Except PErr (List (Block F))
  | 0, _ => Except.ok []
  | n + 1, off => do
    let blockType ← toExc (readU16 bs off)
    let blockLen ← toExc (readU32 bs (off + 2))
    let step ← parsePayload ofBits bs blockType (off + 6)
    let rest ← parseBlocks bs n (off + 6 + blockLen)
    pure (step.1.toList ++ rest)

/-- `parseASE` from `ase-utils`. -/
def parseASE (bs : List Nat) : Except PErr (AseData F) := do
  let signature ← toExc (readChars bs 0 4)
  if signature ≠ strASEF then throw PErr.badSignature
  else do
    let verMaj ← toExc (readU16 bs 4)
    let verMin ← toExc (readU16 bs 6)
    let blockCount ← toExc (readU32 bs 8)
    let blocks ← parseBlocks ofBits bs blockCount 12
    pure ⟨(verMaj, verMin), blocks⟩

/-- The byte chunk emitted for one block by `createASEBuffer`.  A
`groupStart` without a (truthy) name and a `color` without a name or
without a `values` array are skipped (empty chunk), exactly as in the
source's `if` guards. -/
def encodeBlock (b : Block F) : List Nat :=
  match b.type with
  | BlockType.groupStart =>
    match jsStr b.name with
    | some name =>
      let nameBytes := utf16Bytes (name ++ [0])
      let len := 2 + nameBytes.length
      u16bytes 0xC001 ++ u32bytes len ++ u16bytes (name.length + 1) ++ nameBytes
    | none => []
  | BlockType.groupEnd => u16bytes 0xC002 ++ u32bytes 0
  | BlockType.color =>
    match jsStr b.name, b.values with
    | some name, some values =>
      let nameBytes := utf16Bytes (name ++ [0])
      let modelBytes := asciiBytes (jsStrOr b.model strRGBsp)
      let valBytesLen := values.length * 4
      let payloadLen := 2 + nameBytes.length + 4 + valBytesLen + 2
      u16bytes 0x0001 ++ u32bytes payloadLen ++ u16bytes (name.length + 1) ++
        nameBytes ++ modelBytes ++
        values.flatMap (fun v => u32bytes (toBits v)) ++
        u16bytes (jsNumOr b.colorType 2)
    | _, _ => []

/-- `createASEBuffer` from `ase-utils`: header then the concatenated block
chunks.  Note the written block count is `data.blocks.length`, counting
blocks even when their chunk was skipped. -/
def createASEBuffer (d : AseData F) : List Nat :=
  asciiBytes strASEF ++ u16bytes d.version.1 ++ u16bytes d.version.2 ++
    u32bytes d.blocks.length ++ d.blocks.flatMap (encodeBlock toBits)

/-- A well-formed document: version fits in uint16, block count fits in
uint32, and every block carries exactly the fields its kind needs, with
names that fit the length prefix and models drawn from the four tags.
Color names must not contain the null code unit (the decoder strips it). -/
def validBlock (b : Block F) : Bool :=
  match b.type, b.name, b.model, b.values, b.colorType with
  | BlockType.groupStart, some n, none, none, none =>
    !n.isEmpty && n.all (· < 65536) && decide (n.length + 1 < 65536)
  | BlockType.groupEnd, none, none, none, none => true
  | BlockType.color, some n, some m, some vs, some ct =>
    !n.isEmpty && n.all (· < 65536) && n.all (· ≠ 0) &&
      decide (n.length + 1 < 65536) &&
      ((m == strRGBsp) || (m == strCMYK) || (m == strLABsp) || (m == strGray)) &&
      (vs.length == channelsOf m) && decide (ct < 65536)
  | _, _, _, _, _ => false

/-- Document validity (see `validBlock`). -/
def validDoc (d : AseData F) : Bool :=
  decide (d.version.1 < 65536) && decide (d.version.2 < 65536) &&
    decide (d.blocks.length < 4294967296) && d.blocks.all (validBlock (F := F))

/-- The image of a block after one encode/decode round trip: channel values
are rounded to float32, and `colorType` passes through `x || 2`, which
maps both `undefined` and `0` to `2`. -/
def roundTripBlock (b : Block F) : Block F :=
  ⟨b.type, b.name, b.model,
    b.values.map (List.map (f32round toBits ofBits)),
    b.colorType.map (fun ct => if ct = 0 then 2 else ct)⟩

end Codec

/-- Bit-pattern function for instantiating the codec at `F := Nat`:
a "float" is its own 32-bit pattern. -/
def natToBits : Nat → Nat := fun v => v % 4294967296

/-- Companion to `natToBits`: reading back the stored pattern. -/
def natOfBits : Nat → Nat := fun v => v

/-! ### Color pipeline (`color-utils.ts` and the color engine), over `ℚ` -/

/-- ASCII whitespace recognised by our model of `String.trim`.  (JavaScript
trims all Unicode whitespace; the strings this code trims are ASCII.) -/
def isWs (c : Nat) : Bool :=
  (c == 9) || (c == 10) || (c == 11) || (c == 12) || (c == 13) || (c == 32)

/-- `String.prototype.trim`. -/
def trimJs (s : List Nat) : List Nat :=
  ((s.dropWhile isWs).reverse.dropWhile isWs).reverse

/-- `String.prototype.toLowerCase`, modelled on the ASCII letters (all the
keys this code folds are ASCII). -/
def toLowerJs (s : List Nat) : List Nat :=
  s.map (fun c => if 65 ≤ c ∧ c ≤ 90 then c + 32 else c)

/-- Trim + case-fold, the key normalization of the reference table. -/
def normalizeKey (s : List Nat) : List Nat := toLowerJs (trimJs s)

/-- Modelled from the spec: `pantone-library.ts` is not under `src/`, so the
shape of a Reference Entry is taken from §3/§4.3 of the spec and from how
`color-utils.ts` consumes it: `C,M,Y,K` hold the integers `parseInt` reads
from the 0-100 percent strings, `R,G,B` the integers from the 0-255
strings, `Hex` the canonical hex color string, `name` the key. -/
structure PantoneEntry where
  name : List Nat
  Hex : List Nat
  C : Int
  M : Int
  Y : Int
  K : Int
  R : Int
  G : Int
  B : Int
deriving DecidableEq

/-- Modelled from the spec: the process-wide, immutable Authority table
(`getOfficialEntry`) plus the manual override map (`getOfficialHex`). -/
structure PantoneLibrary where
  entries : List PantoneEntry
  overrides : List (List Nat × List Nat)
deriving DecidableEq

/-- Modelled from the spec: `lookup(name)` normalizes by trim + case-fold
and does an exact-key lookup, no fuzzy matching (§4.3). -/
def getOfficialEntry (lib : PantoneLibrary) (name : List Nat) : Option PantoneEntry :=
  lib.entries.find? (fun e => normalizeKey e.name == normalizeKey name)

/-- Modelled from the spec: the secondary override lookup consulted when the
main table misses (`PANTONE_OVERRIDES`), same key normalization. -/
def getOfficialHex (lib : PantoneLibrary) (name : List Nat) : Option (List Nat) :=
  (lib.overrides.find? (fun p => normalizeKey p.1 == normalizeKey name)).map (·.2)

/-- One hex digit (the regex character class `[a-f\d]`, case-insensitive). -/
def hexDigit (c : Nat) : Option Nat :=
  if 48 ≤ c ∧ c ≤ 57 then some (c - 48)
  else if 97 ≤ c ∧ c ≤ 102 then some (c - 87)
  else if 65 ≤ c ∧ c ≤ 70 then some (c - 55)
  else none

/-- Two hex digits as a byte value. -/
def hexPair (a b : Nat) : Option Nat := do
  pure (16 * (← hexDigit a) + (← hexDigit b))

/-- The optional leading `#` of the hex color regex. -/
def stripHash (hex : List Nat) : List Nat :=
  match hex with
  | 35 :: rest => rest
  | _ => hex

/-- `hexToRgb`: `#?` then exactly six hex digits, each byte divided by 255;
any other shape yields `[0, 0, 0]`. -/
def hexToRgb (hex : List Nat) : List ℚ :=
  match stripHash hex with
  | [a, b, c, d, e, f] =>
    match hexPair a b, hexPair c d, hexPair e f with
    | some r, some g, some bl => [(r : ℚ) / 255, (g : ℚ) / 255, (bl : ℚ) / 255]
    | _, _, _ => [0, 0, 0]
  | _ => [0, 0, 0]

/-- `Math.abs(values[i] - target) < TOLERANCE`; an out-of-range index reads
`undefined`, and a comparison against `NaN` is false. -/
def approxAt (vs : List ℚ) (i : Nat) (target : ℚ) : Bool :=
  match vs[i]? with
  | some v => decide (|v - target| < 0.01)
  | none => false

/-- `isStandardPantone` from `color-utils.ts`: componentwise 0.01 tolerance
for CMYK and RGB models, and unconditional trust for LAB/Gray. -/
def isStandardPantone (block : Block ℚ) (entry : PantoneEntry) : Bool :=
  let values := block.values.getD []
  let model := trimJs (jsStrOr block.model strRGB)
  if model = strCMYK then
    approxAt values 0 ((entry.C : ℚ) / 100) && approxAt values 1 ((entry.M : ℚ) / 100) &&
      approxAt values 2 ((entry.Y : ℚ) / 100) && approxAt values 3 ((entry.K : ℚ) / 100)
  else if model = strRGB then
    approxAt values 0 ((entry.R : ℚ) / 255) && approxAt values 1 ((entry.G : ℚ) / 255) &&
      approxAt values 2 ((entry.B : ℚ) / 255)
  else
    true

/-- `isAuthoritative` from `color-utils.ts`. -/
def isAuthoritative (lib : PantoneLibrary) (block : Block ℚ) : Bool :=
  match jsStr block.name with
  | none => false
  | some n =>
    match getOfficialEntry lib n with
    | some e => isStandardPantone block e
    | none => (getOfficialHex lib n).isSome && !((getOfficialHex lib n).getD []).isEmpty

/-- `Math.round`: round half toward positive infinity. -/
def jsRound (q : ℚ) : Int := ⌊q + 1 / 2⌋

/-- `simpleCmykToRgb` (color engine fallback math): 0-255 channel values. -/
def simpleCmykToRgb (c m y k : ℚ) : ℚ × ℚ × ℚ :=
  (((jsRound (255 * (1 - c) * (1 - k)) : Int) : ℚ),
   ((jsRound (255 * (1 - m) * (1 - k)) : Int) : ℚ),
   ((jsRound (255 * (1 - y) * (1 - k)) : Int) : ℚ))

/-- `cmykToProfileRGB` with the device transform unavailable (`isReady` is
false, its initial state, or the Wasm call threw): the analytic fallback. -/
def cmykToProfileRGB (c m y k : ℚ) : ℚ × ℚ × ℚ := simpleCmykToRgb c m y k

/-- `v[i] || 0`: an out-of-range read is `undefined`, hence `0`; a stored
`0` is falsy and also yields `0`. -/
def vAt (v : List ℚ) (i : Nat) : ℚ := v.getD i 0

/-- `labToRgbValues` from `color-utils.ts`.  `powInv` stands for
`Math.pow (v, 1/2.4)`, the one transcendental operation; every property
stated below holds for an arbitrary choice of it. -/
def labToRgbValues (powInv : ℚ → ℚ) (L a b : ℚ) : List ℚ :=
  let validL := if L ≤ 1.05 ∧ 0 < L then L * 100 else L
  let y0 := (validL + 16) / 116
  let x0 := a / 500 + y0
  let z0 := y0 - b / 200
  let x3 := x0 ^ 3
  let y3 := y0 ^ 3
  let z3 := z0 ^ 3
  let x1 := (if x3 > 0.008856 then x3 else (116 * x0 - 16) / 903.3) * 96.422
  let y1 := (if y3 > 0.008856 then y3 else (116 * y0 - 16) / 903.3) * 100
  let z1 := (if z3 > 0.008856 then z3 else (116 * z0 - 16) / 903.3) * 82.521
  let x2 := x1 / 100
  let y2 := y1 / 100
  let z2 := z1 / 100
  let xd := x2 * 0.9555766 + y2 * (-0.0230393) + z2 * 0.0631636
  let yd := x2 * (-0.0282895) + y2 * 1.0099416 + z2 * 0.0210077
  let zd := x2 * 0.0122982 + y2 * (-0.0204830) + z2 * 1.3299098
  let rLin := xd * 3.2404542 + yd * (-1.5371385) + zd * (-0.4985314)
  let gLin := xd * (-0.9692660) + yd * 1.8760108 + zd * 0.0415560
  let bLin := xd * 0.0556434 + yd * (-0.2040259) + zd * 1.0572252
  let toSrgb := fun (v : ℚ) => if v ≤ 0.0031308 then 12.92 * v else 1.055 * powInv v - 0.055
  [min 1 (max 0 (toSrgb rLin)), min 1 (max 0 (toSrgb gLin)), min 1 (max 0 (toSrgb bLin))]

/-- Step 1 of `blockToRgb`: the authority check.  `some rgb` means the
pipeline returns `rgb` immediately; `none` means fall through to math.
An entry match with deviating values falls through; a missing entry
consults the override hex, whose empty string is falsy. -/
def authorityRgb (lib : PantoneLibrary) (block : Block ℚ) : Option (List ℚ) :=
  match jsStr block.name with
  | some n =>
    match getOfficialEntry lib n with
    | some entry =>
      if isStandardPantone block entry then some (hexToRgb entry.Hex) else none
    | none =>
      match getOfficialHex lib n with
      | some h => if h = [] then none else some (hexToRgb h)
      | none => none
  | none => none

/-- `blockToRgb` from `color-utils.ts`, the main conversion pipeline, with
the device transform unavailable (see `cmykToProfileRGB`). -/
def blockToRgb (lib : PantoneLibrary) (powInv : ℚ → ℚ) (block : Block ℚ) : List ℚ :=
  let m := trimJs (jsStrOr block.model strRGB)
  let v := block.values.getD []
  if v = [] then [0, 0, 0]
  else
    match authorityRgb lib block with
    | some rgb => rgb
    | none =>
      if m = strCMYK then
        let c := vAt v 0
        let mV := vAt v 1
        let y := vAt v 2
        let k := vAt v 3
        let rgb255 := cmykToProfileRGB c mV y k
        [rgb255.1 / 255, rgb255.2.1 / 255, rgb255.2.2 / 255]
      else if m = strLAB then
        labToRgbValues powInv (vAt v 0) (vAt v 1) (vAt v 2)
      else if m = strRGB then
        [vAt v 0, vAt v 1, vAt v 2]
      else if m = strGray then
        [vAt v 0, vAt v 0, vAt v 0]
      else [0, 0, 0]

/-- `rgbToCmyk` from `color-utils.ts`. -/
def rgbToCmyk (r g b : ℚ) : List ℚ :=
  let c := 1 - r
  let m := 1 - g
  let y := 1 - b
  let k := min c (min m y)
  if k = 1 then [0, 0, 0, 1]
  else [(c - k) / (1 - k), (m - k) / (1 - k), (y - k) / (1 - k), k]

/-- RGB, through `rgbToCmyk`, back through the analytic CMYK path of
`blockToRgb` (engine values divided by 255). -/
def rgbCmykRoundTrip (r g b : ℚ) : List ℚ :=
  let cmyk := rgbToCmyk r g b
  let c := cmyk.getD 0 0
  let m := cmyk.getD 1 0
  let y := cmyk.getD 2 0
  let k := cmyk.getD 3 0
  [(simpleCmykToRgb c m y k).1 / 255, (simpleCmykToRgb c m y k).2.1 / 255,
   (simpleCmykToRgb c m y k).2.2 / 255]

/-! ### Hierarchical sort (`sortBlocksHierarchically` from the entry module) -/

/-- `TreeNode`: a block, its children, and the captured `GroupEnd` marker. -/
inductive TreeNode where
  | node (block : Block ℚ) (children : List TreeNode) (endBlock : Option (Block ℚ))

/-- The block stored at a node. -/
def TreeNode.blk : TreeNode → Block ℚ
  | node b _ _ => b

/-- A childless node for a color (or orphan group-end) block. -/
def leafNode (b : Block ℚ) : TreeNode := TreeNode.node b [] none

/-- `String.prototype.localeCompare`, modelled as code-unit lexicographic
comparison with result in `{-1, 0, 1}`. -/
def lexCompare : List Nat → List Nat → Int
  | [], [] => 0
  | [], _ :: _ => -1
  | _ :: _, [] => 1
  | a :: as, b :: bs => if a < b then -1 else if b < a then 1 else lexCompare as bs

/-- The `criterion === 'name'` branch of `compareColors`:
`(a.name || '').localeCompare(b.name || '')`. -/
def compareByName (a b : Block ℚ) : Int :=
  lexCompare (a.name.getD []) (b.name.getD [])

/-- The sibling comparator of `sortTree`: groups sort before non-groups,
two groups compare by name, and two non-groups by the caller-selected
criterion comparator `cmp` (`compareColors` in the source). -/
def cmpNodes (cmp : Block ℚ → Block ℚ → Int) (a b : TreeNode) : Int :=
  let ga := a.blk.type = BlockType.groupStart
  let gb := b.blk.type = BlockType.groupStart
  if ga ∧ ¬gb then -1
  else if ¬ ga ∧ gb then 1
  else if ga ∧ gb then lexCompare (a.blk.name.getD []) (b.blk.name.getD [])
  else cmp a.blk b.blk

/-- `Array.prototype.sort`'s ordering predicate for stable merge sort. -/
def nodeLe (cmp : Block ℚ → Block ℚ → Int) (a b : TreeNode) : Bool :=
  decide (cmpNodes cmp a b ≤ 0)

mutual

/-- Recursively sort a node's children (`sortTree` descends first). -/
def sortNode (cmp : Block ℚ → Block ℚ → Int) : TreeNode → TreeNode
  | TreeNode.node b cs e => TreeNode.node b (sortForest cmp cs) e

/-- `sortTree`: children sorted depth-first, then this level sorted with a
stable sort (ECMAScript `Array.prototype.sort` is stable). -/
def sortForest (cmp : Block ℚ → Block ℚ → Int) (f : List TreeNode) : List TreeNode :=
  List.mergeSort (sortNodes cmp f) (nodeLe cmp)

/-- Pointwise `sortNode` over a forest. -/
def sortNodes (cmp : Block ℚ → Block ℚ → Int) : List TreeNode → List TreeNode
  | [] => []
  | n :: rest => sortNode cmp n :: sortNodes cmp rest

end

mutual

/-- Flatten one node: its block, its children, then its captured end. -/
def flattenNode : TreeNode → List (Block ℚ)
  | TreeNode.node b cs e => b :: (flattenForest cs ++ e.toList)

/-- Flatten a forest depth-first. -/
def flattenForest : List TreeNode → List (Block ℚ)
  | [] => []
  | n :: rest => flattenNode n ++ flattenForest rest

end

/-- A stack frame while building the tree: the opening block of the group
under construction and the children accumulated so far.  The bottom frame
is the synthetic root. -/
def Frame : Type := Block ℚ × List TreeNode

/-- The stack scan of `sortBlocksHierarchically` (step 1).  The stack is
kept top-first.  A `groupStart` pushes; a `groupEnd` pops and records the
marker, unless only the root remains (orphan), in which case it becomes a
leaf of the current context; anything else becomes a leaf. -/
def toTreeGo : List (Block ℚ) → List Frame → List Frame
  | [], stack => stack
  | _ :: bs, [] => toTreeGo bs []
  | b :: bs, (tb, tcs) :: rest =>
    match b.type with
    | BlockType.groupStart => toTreeGo bs ((b, []) :: (tb, tcs) :: rest)
    | BlockType.groupEnd =>
      match rest with
      | [] => toTreeGo bs [(tb, tcs ++ [leafNode b])]
      | (pb, pcs) :: rest2 =>
        toTreeGo bs ((pb, pcs ++ [TreeNode.node tb tcs (some b)]) :: rest2)
    | BlockType.color => toTreeGo bs ((tb, tcs ++ [leafNode b]) :: rest)

/-- Close the remaining open groups: in the source the pushed nodes are
already attached to their parents by mutation, so an unclosed group simply
stays a child (with no recorded end marker). -/
def collapseStack : List Frame → List TreeNode
  | [] => []
  | [(_, cs)] => cs
  | (gb, gcs) :: (pb, pcs) :: rest =>
    collapseStack ((pb, pcs ++ [TreeNode.node gb gcs none]) :: rest)

/-- The dummy root block (`{ type: 'groupStart' }`). -/
def rootBlock : Block ℚ := ⟨BlockType.groupStart, none, none, none, none⟩

/-- Step 1 of the sort: the implicit tree of a flat block sequence. -/
def toForest (blocks : List (Block ℚ)) : List TreeNode :=
  collapseStack (toTreeGo blocks [(rootBlock, [])])

/-- `sortBlocksHierarchically`, parametrized by the non-group comparator
`cmp` (the source builds `compareColors` from the criterion string; for
`'name'` it is `compareByName`, for the HSL criteria it compares real
numbers derived from `blockToRgb`). -/
def sortBlocksHierarchically (cmp : Block ℚ → Block ℚ → Int)
    (blocks : List (Block ℚ)) : List (Block ℚ) :=
  flattenForest (sortForest cmp (toForest blocks))

/-- True when every `GroupStart` is matched by a `GroupEnd` under the
tolerant scan (orphan `GroupEnd`s are fine): the scan ends on the root
frame alone. -/
def closedSeq (blocks : List (Block ℚ)) : Bool :=
  (toTreeGo blocks [(rootBlock, [])]).length == 1

/-- The nesting depth of every color block, read off the flat sequence by
the same tolerant scan the sort uses (an orphan `GroupEnd` at depth 0
does not change the depth). -/
def colorDepthsGo : List (Block ℚ) → Nat → List (Block ℚ × Nat)
  | [], _ => []
  | b :: bs, d =>
    match b.type with
    | BlockType.groupStart => colorDepthsGo bs (d + 1)
    | BlockType.groupEnd => colorDepthsGo bs (d - 1)
    | BlockType.color => (b, d) :: colorDepthsGo bs d

/-- Color blocks of a sequence, each with its group-nesting depth. -/
def colorDepths (blocks : List (Block ℚ)) : List (Block ℚ × Nat) :=
  colorDepthsGo blocks 0

mutual

/-- Color blocks of one node with their depths, the node sitting at `d`. -/
def treeColorDepthsN : TreeNode → Nat → List (Block ℚ × Nat)
  | TreeNode.node b cs _, d =>
    (if b.type = BlockType.color then [(b, d)] else []) ++ treeColorDepthsF cs (d + 1)

/-- Color blocks of a forest with their depths. -/
def treeColorDepthsF : List TreeNode → Nat → List (Block ℚ × Nat)
  | [], _ => []
  | n :: rest, d => treeColorDepthsN n d ++ treeColorDepthsF rest d

end

mutual

/-- Well-formed nodes: a group node carries a recorded `groupEnd` marker
and well-formed children; a color leaf is bare; a `groupEnd` leaf (an
orphan) may appear only at root level (`atRoot`). -/
def wfNode : TreeNode → Bool → Bool
  | TreeNode.node b cs e, atRoot =>
    match b.type with
    | BlockType.groupStart =>
      match e with
      | some eb => decide (eb.type = BlockType.groupEnd) && wfForest cs false
      | none => false
    | BlockType.groupEnd => atRoot && cs.isEmpty && e.isNone
    | BlockType.color => cs.isEmpty && e.isNone

/-- Pointwise well-formedness of a forest. -/
def wfForest : List TreeNode → Bool → Bool
  | [], _ => true
  | n :: rest, atRoot => wfNode n atRoot && wfForest rest atRoot

end

/-- The blocks represented by a partially built stack, bottom (root) first:
used as the invariant of the scan. -/
def emitStack : List Frame → List (Block ℚ)
  | [] => []
  | (b, cs) :: rest => emitStack rest ++ (b :: flattenForest cs)

/-- Invariant carried by the scan: every frame holds well-formed finished
children, every non-root frame was opened by a `groupStart`. -/
def stackOk : List Frame → Bool
  | [] => false
  | [(_, cs)] => wfForest cs true
  | (gb, gcs) :: rest =>
    decide (gb.type = BlockType.groupStart) && wfForest gcs false && stackOk rest

/-! ### Concrete data used by counterexamples and witnesses -/

/-- A trivial stand-in for the transcendental power function. -/
def pw0 : ℚ → ℚ := fun _ => 0

/-- The empty reference library. -/
def libEmpty : PantoneLibrary := ⟨[], []⟩

/-- A reference entry named "foo" with canonical hex `#FF0000`. -/
def entFoo : PantoneEntry :=
  ⟨[102, 111, 111], [35, 70, 70, 48, 48, 48, 48], 0, 0, 0, 0, 0, 0, 0⟩

/-- A library holding only `entFoo`. -/
def libFoo : PantoneLibrary := ⟨[entFoo], []⟩

/-- A LAB color named "foo" whose values array is empty. -/
def blkLabFooEmpty : Block ℚ :=
  ⟨BlockType.color, some [102, 111, 111], some strLABsp, some [], none⟩

/-- A LAB color named "foo" with values `[0, 0, 0]`. -/
def blkLabFoo : Block ℚ :=
  ⟨BlockType.color, some [102, 111, 111], some strLABsp, some [0, 0, 0], none⟩

/-- A nameless CMYK color with values `[1/2, 0, 0, 0]`. -/
def blkCmykHalf : Block ℚ :=
  ⟨BlockType.color, none, some strCMYK, some [1 / 2, 0, 0, 0], none⟩

/-- A nameless RGB color with stored values `[2, 0, 0]` (out of range). -/
def blkRgbTwo : Block ℚ :=
  ⟨BlockType.color, none, some strRGBsp, some [2, 0, 0], none⟩

/-- A group-start block named "A". -/
def gsA : Block ℚ := ⟨BlockType.groupStart, some [65], none, none, none⟩

/-- A group-end block. -/
def geB : Block ℚ := ⟨BlockType.groupEnd, none, none, none, none⟩

/-- A color block named "a". -/
def colA : Block ℚ := ⟨BlockType.color, some [97], none, none, none⟩

/-- A color block named "b". -/
def colB : Block ℚ := ⟨BlockType.color, some [98], none, none, none⟩

/-- A color block named "z". -/
def colZ : Block ℚ := ⟨BlockType.color, some [122], none, none, none⟩

/-- The document exhibiting the colorType bug: one color, colorType 0. -/
def docGlobal : AseData Nat :=
  ⟨(1, 0), [⟨BlockType.color, some [65], some strRGBsp, some [0, 0, 0], some 0⟩]⟩

/-! ## Lemmas and theorems -/

/-! ### Codec: byte-level reading lemmas -/

theorem u16_digits (v : Nat) : 256 * (v / 256 % 256) + v % 256 = v % 65536 := by omega

theorem u32_digits (v : Nat) :
    16777216 * (v / 16777216 % 256) + 65536 * (v / 65536 % 256) + 256 * (v / 256 % 256) + v % 256 =
      v % 4294967296 := by omega

theorem u16bytes_length (v : Nat) : (u16bytes v).length = 2 := rfl

theorem u32bytes_length (v : Nat) : (u32bytes v).length = 4 := rfl

theorem getElem?_middle {pre seg post : List Nat} {i : Nat} (h : i < seg.length) :
    (pre ++ (seg ++ post))[pre.length + i]? = seg[i]? := by
  rw [List.getElem?_append_right (Nat.le_add_right _ _)]
  rw [Nat.add_sub_cancel_left]
  exact List.getElem?_append_left h

theorem readU16_seg (pre post bs : List Nat) (v off : Nat)
    (hbs : bs = pre ++ (u16bytes v ++ post)) (hoff : off = pre.length) :
    readU16 bs off = some (v % 65536) := by
  subst hbs hoff
  have h0 : (pre ++ (u16bytes v ++ post))[pre.length + 0]? = (u16bytes v)[0]? :=
    getElem?_middle (by simp [u16bytes])
  have h1 : (pre ++ (u16bytes v ++ post))[pre.length + 1]? = (u16bytes v)[1]? :=
    getElem?_middle (by simp [u16bytes])
  simp only [Nat.add_zero] at h0
  simp only [u16bytes, List.getElem?_cons_zero, List.getElem?_cons_succ] at h0 h1
  simp only [readU16, u16bytes, h0, h1, Option.bind_eq_bind, Option.some_bind]
  rw [u16_digits]; rfl

theorem readU32_seg (pre post bs : List Nat) (v off : Nat)
    (hbs : bs = pre ++ (u32bytes v ++ post)) (hoff : off = pre.length) :
    readU32 bs off = some (v % 4294967296) := by
  subst hbs hoff
  have h0 : (pre ++ (u32bytes v ++ post))[pre.length + 0]? = (u32bytes v)[0]? :=
    getElem?_middle (by simp [u32bytes])
  have h1 : (pre ++ (u32bytes v ++ post))[pre.length + 1]? = (u32bytes v)[1]? :=
    getElem?_middle (by simp [u32bytes])
  have h2 : (pre ++ (u32bytes v ++ post))[pre.length + 2]? = (u32bytes v)[2]? :=
    getElem?_middle (by simp [u32bytes])
  have h3 : (pre ++ (u32bytes v ++ post))[pre.length + 3]? = (u32bytes v)[3]? :=
    getElem?_middle (by simp [u32bytes])
  simp only [Nat.add_zero] at h0
  simp only [u32bytes, List.getElem?_cons_zero, List.getElem?_cons_succ] at h0 h1 h2 h3
  simp only [readU32, u32bytes, h0, h1, h2, h3, Option.bind_eq_bind, Option.some_bind]
  rw [u32_digits]; rfl

theorem readChars_seg : ∀ (s pre post bs : List Nat) (off : Nat),
    bs = pre ++ (s ++ post) → off = pre.length →
    readChars bs off s.length = some s := by
  intro s
  induction s with
  | nil => intro pre post bs off hbs hoff; simp [readChars]
  | cons c s ih =>
    intro pre post bs off hbs hoff
    have h0 : bs[off]? = some c := by
      subst hbs hoff
      have h : (pre ++ ((c :: s) ++ post))[pre.length + 0]? = (c :: s)[0]? :=
        getElem?_middle (by simp)
      simpa using h
    have hrest : readChars bs (off + 1) s.length = some s :=
      ih (pre ++ [c]) post bs (off + 1)
        (by rw [hbs]; simp) (by rw [hoff]; simp)
    simp only [List.length_cons, readChars, h0, hrest, Option.bind_eq_bind, Option.some_bind]
    rfl
theorem utf16Bytes_append (a b : List Nat) :
    utf16Bytes (a ++ b) = utf16Bytes a ++ utf16Bytes b := by
  simp [utf16Bytes]

theorem utf16Bytes_length (s : List Nat) : (utf16Bytes s).length = 2 * s.length := by
  induction s with
  | nil => simp [utf16Bytes]
  | cons c s ih =>
    simp [utf16Bytes, u16bytes] at ih ⊢
    omega

theorem readUnits_seg : ∀ (s pre post bs : List Nat) (off : Nat),
    (∀ u ∈ s, u < 65536) →
    bs = pre ++ (utf16Bytes s ++ post) → off = pre.length →
    readUnits bs off s.length = some s := by
  intro s
  induction s with
  | nil => intro pre post bs off _ hbs hoff; simp [readUnits]
  | cons u s ih =>
    intro pre post bs off hval hbs hoff
    have hu : readU16 bs off = some u := by
      have h : readU16 bs off = some (u % 65536) :=
        readU16_seg pre (utf16Bytes s ++ post) bs u off
          (by rw [hbs]; simp [utf16Bytes]) hoff
      rw [h, Nat.mod_eq_of_lt (hval u (by simp))]
    have hrest : readUnits bs (off + 2) s.length = some s := by
      refine ih (pre ++ u16bytes u) post bs (off + 2)
        (fun x hx => hval x (by simp [hx])) ?_ ?_
      · rw [hbs]; simp [utf16Bytes]
      · simp [u16bytes_length, hoff]
    simp only [List.length_cons, readUnits, hu, hrest, Option.bind_eq_bind, Option.some_bind]
    rfl

theorem asciiBytes_of_lt {s : List Nat} (h : ∀ c ∈ s, c < 256) : asciiBytes s = s := by
  simp only [asciiBytes]
  exact List.map_congr_left (fun c hc => Nat.mod_eq_of_lt (h c hc)) |>.trans (List.map_id s)
section CodecProofs

variable {F : Type} (toBits : F → Nat) (ofBits : Nat → F)

theorem readFloats_seg (h32 : ∀ v, toBits v < 4294967296) :
    ∀ (vs : List F) (pre post bs : List Nat) (off : Nat),
    bs = pre ++ (vs.flatMap (fun v => u32bytes (toBits v)) ++ post) → off = pre.length →
    readFloats ofBits bs off vs.length = some (vs.map (f32round toBits ofBits)) := by
  intro vs
  induction vs with
  | nil => intro pre post bs off hbs hoff; simp [readFloats]
  | cons v vs ih =>
    intro pre post bs off hbs hoff
    have hw : readU32 bs off = some (toBits v) := by
      have h : readU32 bs off = some (toBits v % 4294967296) :=
        readU32_seg pre (vs.flatMap (fun v => u32bytes (toBits v)) ++ post) bs (toBits v) off
          (by rw [hbs]; simp) hoff
      rw [h, Nat.mod_eq_of_lt (h32 v)]
    have hrest : readFloats ofBits bs (off + 4) vs.length =
        some (vs.map (f32round toBits ofBits)) := by
      refine ih (pre ++ u32bytes (toBits v)) post bs (off + 4) ?_ ?_
      · rw [hbs]; simp
      · simp [u32bytes_length, hoff]
    simp only [List.length_cons, readFloats, hw, hrest, Option.bind_eq_bind, Option.some_bind]
    rfl

theorem parseBlocks_cons_groupStart (bs pre post : List Nat) (nm : List Nat)
    (hne : nm ≠ []) (hval : ∀ u ∈ nm, u < 65536) (hlen : nm.length + 1 < 65536)
    (n : Nat) (off : Nat) (hoff : off = pre.length)
    (hbs : bs = pre ++
      (encodeBlock toBits ⟨BlockType.groupStart, some nm, none, none, none⟩ ++ post)) :
    parseBlocks ofBits bs (n + 1) off =
      (parseBlocks ofBits bs n (off + 6 + (2 + 2 * (nm.length + 1)))).map
        (fun rest => (⟨BlockType.groupStart, some nm, none, none, none⟩ : Block F) :: rest) := by
  have hchunk : encodeBlock toBits (⟨BlockType.groupStart, some nm, none, none, none⟩ : Block F) =
      u16bytes 0xC001 ++ u32bytes (2 + 2 * (nm.length + 1)) ++ u16bytes (nm.length + 1) ++
        utf16Bytes (nm ++ [0]) := by
    simp [encodeBlock, jsStr, hne, utf16Bytes_length]
  rw [hchunk] at hbs
  have h1 : readU16 bs off = some 0xC001 := by
    have h := readU16_seg pre
      (u32bytes (2 + 2 * (nm.length + 1)) ++ u16bytes (nm.length + 1) ++
        utf16Bytes (nm ++ [0]) ++ post) bs 0xC001 off (by rw [hbs]; simp) hoff
    simpa using h
  have h2 : readU32 bs (off + 2) = some (2 + 2 * (nm.length + 1)) := by
    have h := readU32_seg (pre ++ u16bytes 0xC001)
      (u16bytes (nm.length + 1) ++ utf16Bytes (nm ++ [0]) ++ post) bs
      (2 + 2 * (nm.length + 1)) (off + 2) (by rw [hbs]; simp) (by simp [u16bytes_length, hoff])
    rw [h, Nat.mod_eq_of_lt (by omega)]
  have h3 : readU16 bs (off + 6) = some (nm.length + 1) := by
    have h := readU16_seg
      (pre ++ u16bytes 0xC001 ++ u32bytes (2 + 2 * (nm.length + 1)))
      (utf16Bytes (nm ++ [0]) ++ post) bs (nm.length + 1) (off + 6)
      (by rw [hbs]; simp) (by simp [u16bytes_length, u32bytes_length, hoff]; try omega)
    rw [h, Nat.mod_eq_of_lt hlen]
  have h4 : getUTF16String bs (off + 6 + 2) (nm.length + 1) = some nm := by
    have h := readUnits_seg nm
      (pre ++ u16bytes 0xC001 ++ u32bytes (2 + 2 * (nm.length + 1)) ++ u16bytes (nm.length + 1))
      (u16bytes 0 ++ post) bs (off + 6 + 2) hval
      (by rw [hbs]; simp [utf16Bytes_append, utf16Bytes])
      (by simp [u16bytes_length, u32bytes_length, hoff]; try omega)
    simpa [getUTF16String] using h
  have hpay : parsePayload (F := F) ofBits bs 0xC001 (off + 6) =
      Except.ok (some ⟨BlockType.groupStart, some nm, none, none, none⟩,
        off + 6 + 2 + (nm.length + 1) * 2) := by
    simp [parsePayload, h3, h4, toExc, Bind.bind, Except.bind, Functor.map, Except.map, pure,
      Except.pure]
  simp only [parseBlocks, h1, h2, hpay, toExc, Bind.bind, Except.bind]
  cases hres : parseBlocks ofBits bs n (off + 6 + (2 + 2 * (nm.length + 1))) with
  | error e => simp [hres, Except.map, Functor.map]
  | ok rest => simp [hres, Except.map, Functor.map, pure, Except.pure]

end CodecProofs
section CodecProofs2

variable {F : Type} (toBits : F → Nat) (ofBits : Nat → F)

theorem parseBlocks_cons_groupEnd (bs pre post : List Nat) (n off : Nat)
    (hoff : off = pre.length)
    (hbs : bs = pre ++
      (encodeBlock toBits (⟨BlockType.groupEnd, none, none, none, none⟩ : Block F) ++ post)) :
    parseBlocks ofBits bs (n + 1) off =
      (parseBlocks ofBits bs n (off + 6 + 0)).map
        (fun rest => (⟨BlockType.groupEnd, none, none, none, none⟩ : Block F) :: rest) := by
  have hchunk : encodeBlock toBits (⟨BlockType.groupEnd, none, none, none, none⟩ : Block F) =
      u16bytes 0xC002 ++ u32bytes 0 := by
    simp [encodeBlock]
  rw [hchunk] at hbs
  have h1 : readU16 bs off = some 0xC002 := by
    have h := readU16_seg pre (u32bytes 0 ++ post) bs 0xC002 off (by rw [hbs]; simp) hoff
    simpa using h
  have h2 : readU32 bs (off + 2) = some 0 := by
    have h := readU32_seg (pre ++ u16bytes 0xC002) post bs 0 (off + 2)
      (by rw [hbs]; simp) (by simp [u16bytes_length, hoff])
    simpa using h
  have hpay : parsePayload (F := F) ofBits bs 0xC002 (off + 6) =
      Except.ok (some ⟨BlockType.groupEnd, none, none, none, none⟩, off + 6) := by
    simp [parsePayload, pure, Except.pure]
  simp only [parseBlocks, h1, h2, hpay, toExc, Bind.bind, Except.bind]
  cases hres : parseBlocks ofBits bs n (off + 6 + 0) with
  | error e => simp [hres, Except.map, Functor.map]
  | ok rest => simp [hres, Except.map, Functor.map, pure, Except.pure]

theorem flatMap_u32_length (vs : List F) :
    (vs.flatMap (fun v => u32bytes (toBits v))).length = 4 * vs.length := by
  induction vs with
  | nil => rfl
  | cons a l ih =>
    simp only [List.flatMap_cons, List.length_append, ih, u32bytes_length, List.length_cons]
    omega

theorem parseBlocks_cons_color (bs pre post nm m : List Nat) (vs : List F) (ct : Nat)
    (h32 : ∀ v, toBits v < 4294967296)
    (hne : nm ≠ []) (hval : ∀ u ∈ nm, u < 65536) (hzero : ∀ u ∈ nm, u ≠ 0)
    (hlen : nm.length + 1 < 65536)
    (hm : m = strRGBsp ∨ m = strCMYK ∨ m = strLABsp ∨ m = strGray)
    (hch : vs.length = channelsOf m) (hct : ct < 65536)
    (n off : Nat) (hoff : off = pre.length)
    (hbs : bs = pre ++
      (encodeBlock toBits ⟨BlockType.color, some nm, some m, some vs, some ct⟩ ++ post)) :
    parseBlocks ofBits bs (n + 1) off =
      (parseBlocks ofBits bs n
          (off + 6 + (2 + 2 * (nm.length + 1) + 4 + vs.length * 4 + 2))).map
        (fun rest => (⟨BlockType.color, some nm, some m,
          some (vs.map (f32round toBits ofBits)),
          some (if ct = 0 then 2 else ct)⟩ : Block F) :: rest) := by
  have hmne : m ≠ [] := by
    rcases hm with h | h | h | h <;> (subst h; simp [strRGBsp, strCMYK, strLABsp, strGray])
  have hm4 : m.length = 4 := by
    rcases hm with h | h | h | h <;> (subst h; rfl)
  have hmb : asciiBytes m = m := by
    rcases hm with h | h | h | h <;> (subst h; rfl)
  have hchle : vs.length ≤ 4 := by
    rw [hch]
    rcases hm with h | h | h | h <;> (subst h; simp [channelsOf, strRGBsp, strCMYK, strLABsp, strGray])
  have hctv : jsNumOr (some ct) 2 < 65536 := by
    simp only [jsNumOr]
    split <;> omega
  have hchunk : encodeBlock toBits
      (⟨BlockType.color, some nm, some m, some vs, some ct⟩ : Block F) =
      u16bytes 0x0001 ++ u32bytes (2 + 2 * (nm.length + 1) + 4 + vs.length * 4 + 2) ++
        u16bytes (nm.length + 1) ++ utf16Bytes (nm ++ [0]) ++ m ++
        vs.flatMap (fun v => u32bytes (toBits v)) ++ u16bytes (jsNumOr (some ct) 2) := by
    simp [encodeBlock, jsStr, jsStrOr, hne, hmne, utf16Bytes_length, hmb]
    try ring_nf
    try simp [List.append_assoc]
  rw [hchunk] at hbs
  have h1 : readU16 bs off = some 0x0001 := by
    have h := readU16_seg pre
      (u32bytes (2 + 2 * (nm.length + 1) + 4 + vs.length * 4 + 2) ++
        u16bytes (nm.length + 1) ++ utf16Bytes (nm ++ [0]) ++ m ++
        vs.flatMap (fun v => u32bytes (toBits v)) ++ u16bytes (jsNumOr (some ct) 2) ++ post)
      bs 0x0001 off (by rw [hbs]; simp) hoff
    simpa using h
  have h2 : readU32 bs (off + 2) =
      some (2 + 2 * (nm.length + 1) + 4 + vs.length * 4 + 2) := by
    have h := readU32_seg (pre ++ u16bytes 0x0001)
      (u16bytes (nm.length + 1) ++ utf16Bytes (nm ++ [0]) ++ m ++
        vs.flatMap (fun v => u32bytes (toBits v)) ++ u16bytes (jsNumOr (some ct) 2) ++ post)
      bs (2 + 2 * (nm.length + 1) + 4 + vs.length * 4 + 2) (off + 2)
      (by rw [hbs]; simp) (by simp [u16bytes_length, hoff])
    rw [h, Nat.mod_eq_of_lt (by omega)]
  have h3 : readU16 bs (off + 6) = some (nm.length + 1) := by
    have h := readU16_seg
      (pre ++ u16bytes 0x0001 ++ u32bytes (2 + 2 * (nm.length + 1) + 4 + vs.length * 4 + 2))
      (utf16Bytes (nm ++ [0]) ++ m ++ vs.flatMap (fun v => u32bytes (toBits v)) ++
        u16bytes (jsNumOr (some ct) 2) ++ post)
      bs (nm.length + 1) (off + 6)
      (by rw [hbs]; simp) (by simp [u16bytes_length, u32bytes_length, hoff]; try omega)
    rw [h, Nat.mod_eq_of_lt hlen]
  have h4 : getUTF16String bs (off + 6 + 2) (nm.length + 1) = some nm := by
    have h := readUnits_seg nm
      (pre ++ u16bytes 0x0001 ++ u32bytes (2 + 2 * (nm.length + 1) + 4 + vs.length * 4 + 2) ++
        u16bytes (nm.length + 1))
      (u16bytes 0 ++ (m ++ vs.flatMap (fun v => u32bytes (toBits v)) ++
        u16bytes (jsNumOr (some ct) 2) ++ post))
      bs (off + 6 + 2) hval
      (by rw [hbs]; simp [utf16Bytes_append, utf16Bytes])
      (by simp [u16bytes_length, u32bytes_length, hoff]; try omega)
    simpa [getUTF16String] using h
  have h5 : readChars bs (off + 6 + 2 + (nm.length + 1) * 2) 4 = some m := by
    have h := readChars_seg m
      (pre ++ u16bytes 0x0001 ++ u32bytes (2 + 2 * (nm.length + 1) + 4 + vs.length * 4 + 2) ++
        u16bytes (nm.length + 1) ++ utf16Bytes (nm ++ [0]))
      (vs.flatMap (fun v => u32bytes (toBits v)) ++ u16bytes (jsNumOr (some ct) 2) ++ post)
      bs (off + 6 + 2 + (nm.length + 1) * 2)
      (by rw [hbs]; simp [utf16Bytes_append])
      (by simp [u16bytes_length, u32bytes_length, utf16Bytes_length, hoff]; try omega)
    rw [hm4] at h
    exact h
  have h6 : readFloats ofBits bs (off + 6 + 2 + (nm.length + 1) * 2 + 4) vs.length =
      some (vs.map (f32round toBits ofBits)) := by
    refine readFloats_seg toBits ofBits h32 vs
      (pre ++ u16bytes 0x0001 ++ u32bytes (2 + 2 * (nm.length + 1) + 4 + vs.length * 4 + 2) ++
        u16bytes (nm.length + 1) ++ utf16Bytes (nm ++ [0]) ++ m)
      (u16bytes (jsNumOr (some ct) 2) ++ post)
      bs (off + 6 + 2 + (nm.length + 1) * 2 + 4)
      (by rw [hbs]; simp [utf16Bytes_append])
      (by simp [u16bytes_length, u32bytes_length, utf16Bytes_length, hm4, hoff]; try omega)
  have h7 : readU16 bs (off + 6 + 2 + (nm.length + 1) * 2 + 4 + 4 * vs.length) =
      some (jsNumOr (some ct) 2) := by
    have h := readU16_seg
      (pre ++ u16bytes 0x0001 ++ u32bytes (2 + 2 * (nm.length + 1) + 4 + vs.length * 4 + 2) ++
        u16bytes (nm.length + 1) ++ utf16Bytes (nm ++ [0]) ++ m ++
        vs.flatMap (fun v => u32bytes (toBits v)))
      post bs (jsNumOr (some ct) 2) (off + 6 + 2 + (nm.length + 1) * 2 + 4 + 4 * vs.length)
      (by rw [hbs]; simp [utf16Bytes_append])
      (by
        simp [u16bytes_length, u32bytes_length, utf16Bytes_length, hm4, hoff,
          flatMap_u32_length toBits, -List.length_flatMap]
        try omega)
    rw [h, Nat.mod_eq_of_lt hctv]
  have hfilter : nm.filter (fun u => u ≠ 0) = nm :=
    List.filter_eq_self.mpr (fun a ha => by simpa using hzero a ha)
  have hch2 : channelsOf m = vs.length := hch.symm
  have hpay : parsePayload (F := F) ofBits bs 0x0001 (off + 6) =
      Except.ok (some ⟨BlockType.color, some nm, some m,
        some (vs.map (f32round toBits ofBits)), some (jsNumOr (some ct) 2)⟩,
        off + 6 + 2 + (nm.length + 1) * 2 + 4 + 4 * vs.length + 2) := by
    rw [parsePayload]
    rw [if_neg (by decide), if_neg (by decide), if_pos rfl]
    simp only [h3, h4, hch2, h5, h6, h7, hfilter, toExc, Bind.bind, Except.bind, pure,
      Except.pure]
  simp only [parseBlocks, h1, h2, hpay, toExc, Bind.bind, Except.bind]
  cases hres : parseBlocks ofBits bs n
      (off + 6 + (2 + 2 * (nm.length + 1) + 4 + vs.length * 4 + 2)) with
  | error e => simp [hres, Except.map, Functor.map]
  | ok rest => simp [hres, Except.map, Functor.map, pure, Except.pure, jsNumOr]

end CodecProofs2
section CodecProofs3

variable {F : Type} (toBits : F → Nat) (ofBits : Nat → F)

theorem encodeBlock_length_groupStart (nm : List Nat) (hne : nm ≠ []) :
    (encodeBlock toBits (⟨BlockType.groupStart, some nm, none, none, none⟩ : Block F)).length =
      6 + (2 + 2 * (nm.length + 1)) := by
  simp [encodeBlock, jsStr, hne, utf16Bytes_length, u16bytes_length, u32bytes_length]
  omega

theorem encodeBlock_length_color (nm m : List Nat) (vs : List F) (ct : Nat)
    (hne : nm ≠ []) (hmne : m ≠ []) (hm4 : m.length = 4) :
    (encodeBlock toBits (⟨BlockType.color, some nm, some m, some vs, some ct⟩ : Block F)).length =
      6 + (2 + 2 * (nm.length + 1) + 4 + vs.length * 4 + 2) := by
  simp [encodeBlock, jsStr, jsStrOr, hne, hmne, utf16Bytes_length, u16bytes_length,
    u32bytes_length, flatMap_u32_length toBits, -List.length_flatMap, asciiBytes, hm4]
  omega

theorem parseBlocks_cons (b : Block F) (hb : validBlock b = true)
    (h32 : ∀ v, toBits v < 4294967296) (bs pre post : List Nat) (n off : Nat)
    (hoff : off = pre.length)
    (hbs : bs = pre ++ (encodeBlock toBits b ++ post)) :
    parseBlocks ofBits bs (n + 1) off =
      (parseBlocks ofBits bs n (off + (encodeBlock toBits b).length)).map
        (fun rest => roundTripBlock toBits ofBits b :: rest) := by
  obtain ⟨ty, nameo, modelo, valso, cto⟩ := b
  cases ty with
  | groupStart =>
    cases nameo with
    | none => simp [validBlock] at hb
    | some nm =>
      cases modelo <;> cases valso <;> cases cto <;> simp [validBlock] at hb
      obtain ⟨⟨hne, hval⟩, hlen⟩ := hb
      replace hne : nm ≠ [] := by simpa using hne
      rw [encodeBlock_length_groupStart toBits nm hne, ← Nat.add_assoc]
      simp only [roundTripBlock, Option.map_none']
      exact parseBlocks_cons_groupStart toBits ofBits bs pre post nm hne hval hlen n off hoff hbs
  | groupEnd =>
    cases nameo <;> cases modelo <;> cases valso <;> cases cto <;> simp [validBlock] at hb
    have hlen0 : (encodeBlock toBits
        (⟨BlockType.groupEnd, none, none, none, none⟩ : Block F)).length = 6 + 0 := by
      simp [encodeBlock, u16bytes_length, u32bytes_length]
    rw [hlen0, ← Nat.add_assoc]
    simp only [roundTripBlock, Option.map_none']
    exact parseBlocks_cons_groupEnd toBits ofBits bs pre post n off hoff hbs
  | color =>
    cases nameo with
    | none => simp [validBlock] at hb
    | some nm =>
      cases modelo with
      | none => simp [validBlock] at hb
      | some m =>
        cases valso with
        | none => simp [validBlock] at hb
        | some vs =>
          cases cto with
          | none => simp [validBlock] at hb
          | some ct =>
            simp [validBlock] at hb
            obtain ⟨⟨⟨⟨⟨⟨hne, hval⟩, hzero⟩, hlen⟩, hm⟩, hch⟩, hct⟩ := hb
            replace hne : nm ≠ [] := by simpa using hne
            replace hm : m = strRGBsp ∨ m = strCMYK ∨ m = strLABsp ∨ m = strGray := by
              tauto
            have hmne : m ≠ [] := by
              rcases hm with h | h | h | h <;>
                (subst h; simp [strRGBsp, strCMYK, strLABsp, strGray])
            have hm4 : m.length = 4 := by
              rcases hm with h | h | h | h <;> (subst h; decide)
            rw [encodeBlock_length_color toBits nm m vs ct hne hmne hm4, ← Nat.add_assoc]
            simp only [roundTripBlock, Option.map_some']
            exact parseBlocks_cons_color toBits ofBits bs pre post nm m vs ct h32 hne hval
              hzero hlen hm hch hct n off hoff hbs

end CodecProofs3
section CodecProofs4

variable {F : Type} (toBits : F → Nat) (ofBits : Nat → F)

theorem parseBlocks_encodeAll (h32 : ∀ v, toBits v < 4294967296) :
    ∀ (blocks : List (Block F)) (pre bs : List Nat) (off : Nat),
    (∀ b ∈ blocks, validBlock b = true) →
    bs = pre ++ blocks.flatMap (encodeBlock toBits) → off = pre.length →
    parseBlocks ofBits bs blocks.length off =
      Except.ok (blocks.map (roundTripBlock toBits ofBits)) := by
  intro blocks
  induction blocks with
  | nil => intro pre bs off _ hbs hoff; simp [parseBlocks]
  | cons b rest ih =>
    intro pre bs off hv hbs hoff
    have hstep := parseBlocks_cons toBits ofBits b (hv b (by simp)) h32 bs pre
      (rest.flatMap (encodeBlock toBits)) rest.length off hoff
      (by rw [hbs]; simp)
    have hrest : parseBlocks ofBits bs rest.length (off + (encodeBlock toBits b).length) =
        Except.ok (rest.map (roundTripBlock toBits ofBits)) :=
      ih (pre ++ encodeBlock toBits b) bs (off + (encodeBlock toBits b).length)
        (fun x hx => hv x (by simp [hx]))
        (by rw [hbs]; simp)
        (by simp [hoff])
    simp only [List.length_cons, hstep, hrest, Except.map]
    simp

/-- For every valid document, decoding the encoded buffer succeeds and
returns the same version and, blockwise, the same kind, name and model,
with channel values rounded to float32 and `colorType` passed through
`x || 2` (so `0`, the Global type, comes back as `2`). -/
theorem parseASE_createASEBuffer (h32 : ∀ v, toBits v < 4294967296) (d : AseData F)
    (hd : validDoc d = true) :
    parseASE ofBits (createASEBuffer toBits d) =
      Except.ok ⟨d.version, d.blocks.map (roundTripBlock toBits ofBits)⟩ := by
  obtain ⟨⟨hv1, hv2⟩, hlen, hbl⟩ :
      ((d.version.1 < 65536 ∧ d.version.2 < 65536) ∧ d.blocks.length < 4294967296 ∧
        ∀ b ∈ d.blocks, validBlock b = true) := by
    have h := hd
    simp [validDoc] at h
    tauto
  set bs := createASEBuffer toBits d with hbs
  have hbsdef : bs = strASEF ++ (u16bytes d.version.1 ++ u16bytes d.version.2 ++
      u32bytes d.blocks.length ++ d.blocks.flatMap (encodeBlock toBits)) := by
    rw [hbs]
    simp [createASEBuffer, asciiBytes, strASEF]
  have hsig : readChars bs 0 4 = some strASEF := by
    have h := readChars_seg strASEF []
      (u16bytes d.version.1 ++ u16bytes d.version.2 ++ u32bytes d.blocks.length ++
        d.blocks.flatMap (encodeBlock toBits)) bs 0
      (by rw [hbsdef]; simp) (by simp)
    simpa [strASEF] using h
  have hver1 : readU16 bs 4 = some d.version.1 := by
    have h := readU16_seg strASEF
      (u16bytes d.version.2 ++ u32bytes d.blocks.length ++
        d.blocks.flatMap (encodeBlock toBits)) bs d.version.1 4
      (by rw [hbsdef]; simp) (by simp [strASEF])
    rw [h, Nat.mod_eq_of_lt hv1]
  have hver2 : readU16 bs 6 = some d.version.2 := by
    have h := readU16_seg (strASEF ++ u16bytes d.version.1)
      (u32bytes d.blocks.length ++ d.blocks.flatMap (encodeBlock toBits)) bs d.version.2 6
      (by rw [hbsdef]; simp) (by simp [strASEF, u16bytes_length])
    rw [h, Nat.mod_eq_of_lt hv2]
  have hcount : readU32 bs 8 = some d.blocks.length := by
    have h := readU32_seg (strASEF ++ u16bytes d.version.1 ++ u16bytes d.version.2)
      (d.blocks.flatMap (encodeBlock toBits)) bs d.blocks.length 8
      (by rw [hbsdef]; simp) (by simp [strASEF, u16bytes_length])
    rw [h, Nat.mod_eq_of_lt hlen]
  have hblocks : parseBlocks ofBits bs d.blocks.length 12 =
      Except.ok (d.blocks.map (roundTripBlock toBits ofBits)) := by
    refine parseBlocks_encodeAll toBits ofBits h32 d.blocks
      (strASEF ++ u16bytes d.version.1 ++ u16bytes d.version.2 ++ u32bytes d.blocks.length)
      bs 12 hbl (by rw [hbsdef]; simp) (by simp [strASEF, u16bytes_length, u32bytes_length])
  simp only [parseASE, hsig, hver1, hver2, hcount, hblocks, toExc, Bind.bind, Except.bind,
    ne_eq, not_true_eq_false, reduceIte, pure, Except.pure]

end CodecProofs4
theorem readChars_take : ∀ (n : Nat) (bs : List Nat) (off : Nat), off + n ≤ bs.length →
    readChars bs off n = some ((bs.drop off).take n) := by
  intro n
  induction n with
  | zero => intro bs off h; simp [readChars]
  | succ n ih =>
    intro bs off h
    have hofflt : off < bs.length := by omega
    have h0 : bs[off]? = some bs[off] := List.getElem?_eq_getElem hofflt
    have hrest : readChars bs (off + 1) n = some ((bs.drop (off + 1)).take n) :=
      ih bs (off + 1) (by omega)
    have hdrop : bs.drop off = bs[off] :: bs.drop (off + 1) :=
      List.drop_eq_getElem_cons hofflt
    simp only [readChars, h0, hrest, Option.bind_eq_bind, Option.some_bind, hdrop,
      List.take_succ_cons]
    rfl

section ClaimC1

/-- C1: for every valid Document, decode of encode yields the same
block structure with values up to float32 rounding.  The code violates
this claim at colorType 0: `createASEBuffer` writes `block.colorType || 2`,
so the Global type (0) is encoded as 2.  This theorem evaluates the codec
at the failing input: a valid one-color document with colorType 0 decodes
back with colorType 2. -/
theorem c1_roundtrip_loses_global_colorType :
    validDoc docGlobal = true ∧
    docGlobal.blocks.map Block.colorType = [some 0] ∧
    parseASE natOfBits (createASEBuffer natToBits docGlobal) =
      Except.ok ⟨(1, 0),
        [⟨BlockType.color, some [65], some strRGBsp, some [0, 0, 0], some 2⟩]⟩ ∧
    (some 2 : Option Nat) ≠ some 0 := by
  refine ⟨by rfl, by rfl, by rfl, by decide⟩

end ClaimC1

section ClaimC7

/-- C7: every buffer of at least 4 bytes whose first 4 bytes are not the
ASCII signature "ASEF" makes `parseASE` fail with the signature error and
yields no document. -/
theorem c7_bad_signature_rejected {F : Type} (ofBits : Nat → F) (bs : List Nat)
    (h4 : 4 ≤ bs.length) (hsig : bs.take 4 ≠ strASEF) :
    parseASE (F := F) ofBits bs = Except.error PErr.badSignature := by
  have hread : readChars bs 0 4 = some (bs.take 4) := by
    have h := readChars_take 4 bs 0 (by omega)
    simpa using h
  simp [parseASE, hread, toExc, Bind.bind, Except.bind, hsig, throw, throwThe,
    MonadExceptOf.throw]

/-- Witness for C7: the spec's own scenario, a buffer starting "ASEX". -/
theorem c7_bad_signature_rejected_witness :
    parseASE (F := Nat) natOfBits [65, 83, 69, 88] = Except.error PErr.badSignature :=
  c7_bad_signature_rejected natOfBits [65, 83, 69, 88] (by decide) (by decide)

end ClaimC7

section ClaimC8

/-- C8: after reading a block's 6-byte header, the next block is parsed at
`blockStart + 6 + blockLength`, no matter where field-by-field payload
parsing left its cursor (`cur` is arbitrary and absent from the
conclusion); and a block whose type is none of `0xC001`/`0xC002`/`0x0001`
produces no block yet decoding continues at the recorded end. -/
theorem c8_resume_at_recorded_end {F : Type} (ofBits : Nat → F) (bs : List Nat)
    (n off t len cur : Nat) (b : Option (Block F))
    (ht : readU16 bs off = some t) (hlen : readU32 bs (off + 2) = some len)
    (hp : parsePayload ofBits bs t (off + 6) = Except.ok (b, cur)) :
    parseBlocks ofBits bs (n + 1) off =
      (parseBlocks ofBits bs n (off + 6 + len)).map (fun rest => b.toList ++ rest) ∧
    (¬(t = 0xC001 ∨ t = 0xC002 ∨ t = 0x0001) → b = none) := by
  constructor
  · simp only [parseBlocks, ht, hlen, hp, toExc, Bind.bind, Except.bind]
    cases hres : parseBlocks ofBits bs n (off + 6 + len) with
    | error e => simp [hres, Except.map, Functor.map]
    | ok rest => simp [hres, Except.map, Functor.map, pure, Except.pure]
  · intro hunk
    rw [parsePayload, if_neg (by tauto), if_neg (by tauto), if_neg (by tauto)] at hp
    simp [pure, Except.pure] at hp
    exact hp.1.symm

/-- Witness for C8: a block of unknown type `0xBEEF` with declared length
12 is skipped whole, and the parser continues at offset 18. -/
theorem c8_resume_at_recorded_end_witness :
    (parseBlocks (F := Nat) natOfBits [190, 239, 0, 0, 0, 12] 1 0 =
      (parseBlocks (F := Nat) natOfBits [190, 239, 0, 0, 0, 12] 0 (0 + 6 + 12)).map
        (fun rest => (none : Option (Block Nat)).toList ++ rest)) ∧
    (¬((48879 : Nat) = 0xC001 ∨ (48879 : Nat) = 0xC002 ∨ (48879 : Nat) = 0x0001) →
      (none : Option (Block Nat)) = none) :=
  c8_resume_at_recorded_end natOfBits [190, 239, 0, 0, 0, 12] 0 0 48879 12 6 none
    (by rfl) (by rfl) (by rfl)

end ClaimC8

/-! ### Color pipeline claims -/

section ClaimC10

/-- C10: a color block with a missing or empty values array yields
`[0, 0, 0]` immediately, whatever the library, name or model — the check
precedes the authority lookup and all model branches. -/
theorem c10_empty_values_black (lib : PantoneLibrary) (powInv : ℚ → ℚ) (block : Block ℚ)
    (h : block.values = none ∨ block.values = some []) :
    blockToRgb lib powInv block = [0, 0, 0] := by
  rcases h with h | h <;> simp [blockToRgb, h]

/-- Witness for C10: a block named after a library entry with a non-black
canonical hex still comes back black when its values array is empty. -/
theorem c10_empty_values_black_witness :
    blockToRgb libFoo pw0 blkLabFooEmpty = [0, 0, 0] :=
  c10_empty_values_black libFoo pw0 blkLabFooEmpty (Or.inr rfl)

end ClaimC10

section ClaimC2

/-- Counterexample to C2 as stated: a Lab entry whose trimmed name matches
the reference entry "foo" (for Lab, any name match suffices per the claim),
but whose values array is empty: `blockToRgb` returns black, not the
reference color `#FF0000`. -/
theorem c2_empty_values_bypass_authority :
    getOfficialEntry libFoo [102, 111, 111] = some entFoo ∧
    isStandardPantone blkLabFooEmpty entFoo = true ∧
    hexToRgb entFoo.Hex = [1, 0, 0] ∧
    blockToRgb libFoo pw0 blkLabFooEmpty = [0, 0, 0] ∧
    ([0, 0, 0] : List ℚ) ≠ [1, 0, 0] := by
  refine ⟨by rfl, by rfl, ?_, by rfl, by simp⟩
  simp [hexToRgb, stripHash, entFoo, hexPair, hexDigit, Option.bind]

/-- C2 (amended): for every color entry with a nonempty values array whose
name matches a reference entry and whose stored values pass the
per-model tolerance check (`isStandardPantone`: componentwise 0.01 for
RGB/CMYK, any match for Lab/Gray), `blockToRgb` returns the reference's
canonical color, bypassing conversion math. -/
theorem c2_authority_returns_reference (lib : PantoneLibrary) (powInv : ℚ → ℚ)
    (block : Block ℚ) (nm : List Nat) (entry : PantoneEntry) (vs : List ℚ)
    (hname : block.name = some nm) (hne : nm ≠ [])
    (hentry : getOfficialEntry lib nm = some entry)
    (hstd : isStandardPantone block entry = true)
    (hvals : block.values = some vs) (hvne : vs ≠ []) :
    blockToRgb lib powInv block = hexToRgb entry.Hex := by
  simp [blockToRgb, authorityRgb, hname, jsStr, hne, hentry, hstd, hvals, hvne]

/-- Witness for C2: the "foo" Lab entry with values `[0,0,0]` resolves to
the canonical `#FF0000`. -/
theorem c2_authority_returns_reference_witness :
    blockToRgb libFoo pw0 blkLabFoo = hexToRgb entFoo.Hex :=
  c2_authority_returns_reference libFoo pw0 blkLabFoo [102, 111, 111] entFoo [0, 0, 0]
    (by rfl) (by simp) (by rfl) (by rfl) (by rfl) (by simp)

end ClaimC2

section ClaimC4

/-- Rounding to the nearest byte then renormalizing moves a channel by at
most `1/510` (`Math.round` rounds half up). -/
theorem jsRound_div255_close (x : ℚ) :
    |((jsRound (255 * x) : ℤ) : ℚ) / 255 - x| ≤ 1 / 510 := by
  have hle : ((jsRound (255 * x) : ℤ) : ℚ) ≤ 255 * x + 1 / 2 := Int.floor_le _
  have hgt : 255 * x + 1 / 2 - 1 < ((jsRound (255 * x) : ℤ) : ℚ) := Int.sub_one_lt_floor _
  rw [abs_le]
  constructor <;> nlinarith

/-- Counterexample to C4 as stated: a nameless CMYK entry `[1/2, 0, 0, 0]`
resolves to `[128/255, 1, 1]`, not the claimed analytic value
`[1/2, 1, 1]`: `simpleCmykToRgb` rounds to whole byte values first. -/
theorem c4_fallback_includes_rounding :
    blockToRgb libEmpty pw0 blkCmykHalf = [128 / 255, 1, 1] ∧
    (255 * (1 - (1 / 2 : ℚ)) * (1 - 0)) / 255 = 1 / 2 ∧
    ((128 : ℚ) / 255) ≠ 1 / 2 := by
  refine ⟨?_, by norm_num, by norm_num⟩
  simp [blockToRgb, authorityRgb, blkCmykHalf, jsStr, trimJs, jsStrOr, isWs, strCMYK, strRGB,
    vAt, cmykToProfileRGB, simpleCmykToRgb, jsRound]
  norm_num

/-- C4 (amended): for a CMYK entry whose authority lookup misses, with the
transform service unavailable, `blockToRgb` returns the analytic
approximation rounded to byte precision —
`round(255(1−c)(1−k))/255` per channel, within `1/510` of the unrounded
`(1−c)(1−k)` — and no error is raised (the function is total). -/
theorem c4_cmyk_analytic_fallback (lib : PantoneLibrary) (powInv : ℚ → ℚ)
    (block : Block ℚ) (c m y k : ℚ)
    (hauth : authorityRgb lib block = none)
    (hmodel : block.model = some strCMYK)
    (hvals : block.values = some [c, m, y, k])
    (hc : 0 ≤ c ∧ c ≤ 1) (hm : 0 ≤ m ∧ m ≤ 1) (hy : 0 ≤ y ∧ y ≤ 1) (hk : 0 ≤ k ∧ k ≤ 1) :
    blockToRgb lib powInv block =
      [((jsRound (255 * (1 - c) * (1 - k)) : ℤ) : ℚ) / 255,
       ((jsRound (255 * (1 - m) * (1 - k)) : ℤ) : ℚ) / 255,
       ((jsRound (255 * (1 - y) * (1 - k)) : ℤ) : ℚ) / 255] ∧
    |((jsRound (255 * (1 - c) * (1 - k)) : ℤ) : ℚ) / 255 - (1 - c) * (1 - k)| ≤ 1 / 510 ∧
    |((jsRound (255 * (1 - m) * (1 - k)) : ℤ) : ℚ) / 255 - (1 - m) * (1 - k)| ≤ 1 / 510 ∧
    |((jsRound (255 * (1 - y) * (1 - k)) : ℤ) : ℚ) / 255 - (1 - y) * (1 - k)| ≤ 1 / 510 := by
  have htrim : trimJs (jsStrOr (some strCMYK) strRGB) = strCMYK := by rfl
  refine ⟨?_, ?_, ?_, ?_⟩
  · simp [blockToRgb, hauth, hmodel, hvals, htrim, cmykToProfileRGB, simpleCmykToRgb, vAt,
      mul_comm]
  · have h := jsRound_div255_close ((1 - c) * (1 - k))
    rw [← mul_assoc] at h; exact h
  · have h := jsRound_div255_close ((1 - m) * (1 - k))
    rw [← mul_assoc] at h; exact h
  · have h := jsRound_div255_close ((1 - y) * (1 - k))
    rw [← mul_assoc] at h; exact h

/-- Witness for C4: a concrete nameless CMYK entry `[1/4, 0, 0, 0]`. -/
theorem c4_cmyk_analytic_fallback_witness :
    blockToRgb libEmpty pw0
        (⟨BlockType.color, none, some strCMYK, some [1 / 4, 0, 0, 0], none⟩ : Block ℚ) =
      [((jsRound (255 * (1 - (1 / 4 : ℚ)) * (1 - 0)) : ℤ) : ℚ) / 255,
       ((jsRound (255 * (1 - (0 : ℚ)) * (1 - 0)) : ℤ) : ℚ) / 255,
       ((jsRound (255 * (1 - (0 : ℚ)) * (1 - 0)) : ℤ) : ℚ) / 255] ∧
    |((jsRound (255 * (1 - (1 / 4 : ℚ)) * (1 - 0)) : ℤ) : ℚ) / 255 -
      (1 - (1 / 4 : ℚ)) * (1 - 0)| ≤ 1 / 510 ∧
    |((jsRound (255 * (1 - (0 : ℚ)) * (1 - 0)) : ℤ) : ℚ) / 255 - (1 - (0 : ℚ)) * (1 - 0)| ≤
      1 / 510 ∧
    |((jsRound (255 * (1 - (0 : ℚ)) * (1 - 0)) : ℤ) : ℚ) / 255 - (1 - (0 : ℚ)) * (1 - 0)| ≤
      1 / 510 :=
  c4_cmyk_analytic_fallback libEmpty pw0 _ (1 / 4) 0 0 0 (by rfl) (by rfl) (by rfl)
    (by constructor <;> norm_num) (by constructor <;> norm_num)
    (by constructor <;> norm_num) (by constructor <;> norm_num)

end ClaimC4

section ClaimC5

/-- Counterexample to C5 as stated: at `(1/2, 1/2, 1/2)` (not the excluded
achromatic point: there `k = 1/2 ≠ 1`) the round trip returns `128/255`
per channel, which misses `1/2` by `1/510 > 1e-3`: the analytic path
quantizes to bytes. -/
theorem c5_roundtrip_misses_tolerance :
    rgbToCmyk (1 / 2) (1 / 2) (1 / 2) = [0, 0, 0, 1 / 2] ∧
    rgbCmykRoundTrip (1 / 2) (1 / 2) (1 / 2) = [128 / 255, 128 / 255, 128 / 255] ∧
    ¬(|((128 : ℚ) / 255) - 1 / 2| ≤ 1 / 1000) := by
  have hmin : min (1 - (1 / 2 : ℚ)) (min (1 - 1 / 2) (1 - 1 / 2)) = 1 / 2 := by norm_num
  have h1 : rgbToCmyk (1 / 2) (1 / 2) (1 / 2) = [0, 0, 0, 1 / 2] := by
    simp only [rgbToCmyk, hmin]
    norm_num
  have h2 : rgbCmykRoundTrip (1 / 2) (1 / 2) (1 / 2) = [128 / 255, 128 / 255, 128 / 255] := by
    simp only [rgbCmykRoundTrip, h1, simpleCmykToRgb, List.getD_cons_zero, List.getD_cons_succ]
    norm_num [jsRound]
  refine ⟨h1, h2, by rw [abs_le]; norm_num⟩

/-- C5 (amended): for every RGB triplet in `[0,1]^3` the composition
`rgbToCmyk` then the analytic CMYK path recovers each channel within the
byte-quantization bound `1/510` (about `2e-3`, not the claimed `1e-3`);
at the achromatic point `(0,0,0)`, where `k = 1`, recovery is exact. -/
theorem c5_roundtrip_within_quantization (r g b : ℚ)
    (hr : 0 ≤ r ∧ r ≤ 1) (hg : 0 ≤ g ∧ g ≤ 1) (hb : 0 ≤ b ∧ b ≤ 1) :
    (rgbCmykRoundTrip r g b).length = 3 ∧
    |(rgbCmykRoundTrip r g b).getD 0 0 - r| ≤ 1 / 510 ∧
    |(rgbCmykRoundTrip r g b).getD 1 0 - g| ≤ 1 / 510 ∧
    |(rgbCmykRoundTrip r g b).getD 2 0 - b| ≤ 1 / 510 := by
  by_cases hk : min (1 - r) (min (1 - g) (1 - b)) = 1
  · have hmin1 : min (1 - r) (min (1 - g) (1 - b)) ≤ 1 - r := min_le_left _ _
    have hmin2 : min (1 - r) (min (1 - g) (1 - b)) ≤ 1 - g :=
      le_trans (min_le_right _ _) (min_le_left _ _)
    have hmin3 : min (1 - r) (min (1 - g) (1 - b)) ≤ 1 - b :=
      le_trans (min_le_right _ _) (min_le_right _ _)
    rw [hk] at hmin1 hmin2 hmin3
    have hr0 : r = 0 := by linarith [hr.1]
    have hg0 : g = 0 := by linarith [hg.1]
    have hb0 : b = 0 := by linarith [hb.1]
    subst hr0 hg0 hb0
    have h1 : rgbToCmyk 0 0 0 = [0, 0, 0, 1] := by
      simp only [rgbToCmyk, if_pos hk]
    have h2 : rgbCmykRoundTrip 0 0 0 = [0, 0, 0] := by
      simp only [rgbCmykRoundTrip, h1, simpleCmykToRgb, List.getD_cons_zero, List.getD_cons_succ]
      norm_num [jsRound]
    rw [h2]
    refine ⟨rfl, ?_, ?_, ?_⟩ <;> norm_num
  · have h1k : (1 : ℚ) - min (1 - r) (min (1 - g) (1 - b)) ≠ 0 :=
      sub_ne_zero.mpr (fun h => hk h.symm)
    have harg_r : 255 * (1 - ((1 - r) - min (1 - r) (min (1 - g) (1 - b))) /
        (1 - min (1 - r) (min (1 - g) (1 - b)))) *
        (1 - min (1 - r) (min (1 - g) (1 - b))) = 255 * r := by
      field_simp
      try ring
    have harg_g : 255 * (1 - ((1 - g) - min (1 - r) (min (1 - g) (1 - b))) /
        (1 - min (1 - r) (min (1 - g) (1 - b)))) *
        (1 - min (1 - r) (min (1 - g) (1 - b))) = 255 * g := by
      field_simp
      try ring
    have harg_b : 255 * (1 - ((1 - b) - min (1 - r) (min (1 - g) (1 - b))) /
        (1 - min (1 - r) (min (1 - g) (1 - b)))) *
        (1 - min (1 - r) (min (1 - g) (1 - b))) = 255 * b := by
      field_simp
      try ring
    have hform : rgbCmykRoundTrip r g b =
        [((jsRound (255 * r) : ℤ) : ℚ) / 255, ((jsRound (255 * g) : ℤ) : ℚ) / 255,
         ((jsRound (255 * b) : ℤ) : ℚ) / 255] := by
      simp only [rgbCmykRoundTrip, rgbToCmyk, if_neg hk, simpleCmykToRgb,
        List.getD_cons_zero, List.getD_cons_succ]
      rw [harg_r, harg_g, harg_b]
    rw [hform]
    refine ⟨rfl, ?_, ?_, ?_⟩ <;> simpa using jsRound_div255_close _

/-- Witness for C5: the round trip at `(1/2, 1/2, 1/2)` stays within
`1/510` per channel. -/
theorem c5_roundtrip_within_quantization_witness :
    (rgbCmykRoundTrip (1 / 2) (1 / 2) (1 / 2)).length = 3 ∧
    |(rgbCmykRoundTrip (1 / 2) (1 / 2) (1 / 2)).getD 0 0 - 1 / 2| ≤ 1 / 510 ∧
    |(rgbCmykRoundTrip (1 / 2) (1 / 2) (1 / 2)).getD 1 0 - 1 / 2| ≤ 1 / 510 ∧
    |(rgbCmykRoundTrip (1 / 2) (1 / 2) (1 / 2)).getD 2 0 - 1 / 2| ≤ 1 / 510 :=
  c5_roundtrip_within_quantization (1 / 2) (1 / 2) (1 / 2)
    (by norm_num) (by norm_num) (by norm_num)

end ClaimC5

section ClaimC6

/-- Counterexample to C6 as stated: an RGB entry with stored value 2 passes
through unchanged, outside `[0,1]` (the UI clamps later, in
`getCSSColor`, precisely because `blockToRgb` does not). -/
theorem c6_out_of_range_passthrough :
    blockToRgb libEmpty pw0 blkRgbTwo = [2, 0, 0] ∧ ¬((2 : ℚ) ≤ 1) := by
  refine ⟨by rfl, by norm_num⟩

theorem hexDigit_le {c d : Nat} (h : hexDigit c = some d) : d ≤ 15 := by
  unfold hexDigit at h
  split_ifs at h with h1 h2 h3
  · cases h; omega
  · cases h; omega
  · cases h; omega

theorem hexPair_le {a b n : Nat} (h : hexPair a b = some n) : n ≤ 255 := by
  simp only [hexPair, Option.bind_eq_bind] at h
  cases ha : hexDigit a with
  | none => rw [ha] at h; simp at h
  | some da =>
    rw [ha] at h
    cases hb : hexDigit b with
    | none => rw [hb] at h; simp at h
    | some db =>
      rw [hb] at h
      simp only [Option.some_bind, pure, Option.some.injEq] at h
      have h1 := hexDigit_le ha
      have h2 := hexDigit_le hb
      omega

theorem hexToRgb_range (s : List Nat) : ∀ x ∈ hexToRgb s, 0 ≤ x ∧ x ≤ 1 := by
  intro x hx
  simp only [hexToRgb] at hx
  split at hx
  · split at hx
    · rename_i r g bl hr hg hbl
      simp only [List.mem_cons, List.not_mem_nil, or_false] at hx
      have h1 := hexPair_le hr
      have h2 := hexPair_le hg
      have h3 := hexPair_le hbl
      rcases hx with rfl | rfl | rfl <;> constructor <;>
        first
        | positivity
        | (rw [div_le_one (by norm_num)]; exact_mod_cast by omega)
    · simp only [List.mem_cons, List.not_mem_nil, or_false] at hx
      rcases hx with rfl | rfl | rfl <;> norm_num
  · simp only [List.mem_cons, List.not_mem_nil, or_false] at hx
    rcases hx with rfl | rfl | rfl <;> norm_num

end ClaimC6

theorem authorityRgb_range (lib : PantoneLibrary) (block : Block ℚ) (rgb : List ℚ)
    (h : authorityRgb lib block = some rgb) : ∀ x ∈ rgb, 0 ≤ x ∧ x ≤ 1 := by
  simp only [authorityRgb] at h
  split at h
  · split at h
    · split at h
      · cases h; exact hexToRgb_range _
      · cases h
    · split at h
      · split at h
        · cases h
        · cases h; exact hexToRgb_range _
      · cases h
  · cases h

theorem getD_range {v : List ℚ} (h : ∀ x ∈ v, 0 ≤ x ∧ x ≤ 1) (i : Nat) :
    0 ≤ vAt v i ∧ vAt v i ≤ 1 := by
  unfold vAt
  rw [List.getD_eq_getElem?_getD]
  cases hx : v[i]? with
  | none => simp
  | some x =>
    simp only [Option.getD_some]
    exact h x (List.getElem?_mem hx)

theorem jsRound_cast_range {x : ℚ} (h0 : 0 ≤ x) (h255 : x ≤ 255) :
    0 ≤ ((jsRound x : ℤ) : ℚ) ∧ ((jsRound x : ℤ) : ℚ) ≤ 255 := by
  unfold jsRound
  constructor
  · have h : (0 : ℤ) ≤ ⌊x + 1 / 2⌋ := Int.floor_nonneg.mpr (by linarith)
    exact_mod_cast h
  · have h1 : ⌊x + 1 / 2⌋ ≤ ⌊(511 / 2 : ℚ)⌋ := Int.floor_le_floor (by linarith)
    have h2 : ⌊(511 / 2 : ℚ)⌋ = 255 := by norm_num
    rw [h2] at h1
    exact_mod_cast h1

theorem clamp01_range (x : ℚ) : 0 ≤ min 1 (max 0 x) ∧ min 1 (max 0 x) ≤ 1 :=
  ⟨le_min (by norm_num) (le_max_left 0 x), min_le_left _ _⟩

theorem labToRgbValues_range (powInv : ℚ → ℚ) (L a b : ℚ) :
    ∀ x ∈ labToRgbValues powInv L a b, 0 ≤ x ∧ x ≤ 1 := by
  intro x hx
  simp only [labToRgbValues, List.mem_cons, List.not_mem_nil, or_false] at hx
  rcases hx with rfl | rfl | rfl <;> exact clamp01_range _

theorem mem_triple {α : Type} {x a b c : α} (h : x ∈ [a, b, c]) : x = a ∨ x = b ∨ x = c := by
  simpa using h

/-- C6 (amended): for every color entry whose stored channel values lie in
`[0,1]`, `blockToRgb` returns a triplet with all components in `[0,1]`,
whatever the model, name, reference library or power function. -/
theorem c6_display_color_in_unit_range (lib : PantoneLibrary) (powInv : ℚ → ℚ)
    (block : Block ℚ) (h : ∀ v ∈ block.values.getD [], 0 ≤ v ∧ v ≤ 1) :
    ∀ x ∈ blockToRgb lib powInv block, 0 ≤ x ∧ x ≤ 1 := by
  intro x hx
  simp only [blockToRgb] at hx
  by_cases hv : block.values.getD [] = []
  · rw [if_pos hv] at hx
    rcases mem_triple hx with rfl | rfl | rfl <;> norm_num
  · rw [if_neg hv] at hx
    cases hauth : authorityRgb lib block with
    | some rgb =>
      rw [hauth] at hx
      exact authorityRgb_range lib block rgb hauth x hx
    | none =>
      rw [hauth] at hx
      have hc := getD_range h 0
      have hm := getD_range h 1
      have hy := getD_range h 2
      have hk := getD_range h 3
      by_cases h1 : trimJs (jsStrOr block.model strRGB) = strCMYK
      · rw [if_pos h1] at hx
        simp only [cmykToProfileRGB, simpleCmykToRgb] at hx
        rcases mem_triple hx with rfl | rfl | rfl
        · have hb1 : 0 ≤ 255 * (1 - vAt (block.values.getD []) 0) *
              (1 - vAt (block.values.getD []) 3) ∧
              255 * (1 - vAt (block.values.getD []) 0) *
              (1 - vAt (block.values.getD []) 3) ≤ 255 := by
            constructor <;> nlinarith [hc.1, hc.2, hk.1, hk.2]
          have hr := jsRound_cast_range hb1.1 hb1.2
          constructor
          · exact div_nonneg hr.1 (by norm_num)
          · rw [div_le_one (by norm_num)]; linarith [hr.2]
        · have hb2 : 0 ≤ 255 * (1 - vAt (block.values.getD []) 1) *
              (1 - vAt (block.values.getD []) 3) ∧
              255 * (1 - vAt (block.values.getD []) 1) *
              (1 - vAt (block.values.getD []) 3) ≤ 255 := by
            constructor <;> nlinarith [hm.1, hm.2, hk.1, hk.2]
          have hr := jsRound_cast_range hb2.1 hb2.2
          constructor
          · exact div_nonneg hr.1 (by norm_num)
          · rw [div_le_one (by norm_num)]; linarith [hr.2]
        · have hb3 : 0 ≤ 255 * (1 - vAt (block.values.getD []) 2) *
              (1 - vAt (block.values.getD []) 3) ∧
              255 * (1 - vAt (block.values.getD []) 2) *
              (1 - vAt (block.values.getD []) 3) ≤ 255 := by
            constructor <;> nlinarith [hy.1, hy.2, hk.1, hk.2]
          have hr := jsRound_cast_range hb3.1 hb3.2
          constructor
          · exact div_nonneg hr.1 (by norm_num)
          · rw [div_le_one (by norm_num)]; linarith [hr.2]
      · rw [if_neg h1] at hx
        by_cases h2 : trimJs (jsStrOr block.model strRGB) = strLAB
        · rw [if_pos h2] at hx
          exact labToRgbValues_range powInv _ _ _ x hx
        · rw [if_neg h2] at hx
          by_cases h3 : trimJs (jsStrOr block.model strRGB) = strRGB
          · rw [if_pos h3] at hx
            rcases mem_triple hx with rfl | rfl | rfl
            · exact hc
            · exact hm
            · exact hy
          · rw [if_neg h3] at hx
            by_cases h4 : trimJs (jsStrOr block.model strRGB) = strGray
            · rw [if_pos h4] at hx
              rcases mem_triple hx with rfl | rfl | rfl <;> exact hc
            · rw [if_neg h4] at hx
              rcases mem_triple hx with rfl | rfl | rfl <;> norm_num

/-- Witness for C6: the Lab entry `blkLabFoo` (values in range) resolves to
a triplet inside `[0,1]`; its first component is in range. -/
theorem c6_unit_range_witness :
    0 ≤ (blockToRgb libFoo pw0 blkLabFoo).headI ∧
      (blockToRgb libFoo pw0 blkLabFoo).headI ≤ 1 :=
  c6_display_color_in_unit_range libFoo pw0 blkLabFoo
    (by intro v hv; simp [blkLabFoo] at hv; rcases hv with rfl | rfl | rfl <;> norm_num)
    (blockToRgb libFoo pw0 blkLabFoo).headI
    (by
      have he : getOfficialEntry libFoo [102, 111, 111] = some entFoo := rfl
      have hs : isStandardPantone blkLabFoo entFoo = true := rfl
      have hname : blkLabFoo.name = some [102, 111, 111] := rfl
      have hvals : blkLabFoo.values = some [0, 0, 0] := rfl
      have hne : ([102, 111, 111] : List Nat) ≠ [] := by simp
      have hvne : ([0, 0, 0] : List ℚ) ≠ [] := by simp
      have h1 : blockToRgb libFoo pw0 blkLabFoo = hexToRgb entFoo.Hex := by
        simp [blockToRgb, authorityRgb, hname, jsStr, hne, he, hs, hvals, hvne]
      have h2 : hexToRgb entFoo.Hex = [1, 0, 0] := by
        simp [hexToRgb, stripHash, entFoo, hexPair, hexDigit, Option.bind]
      rw [h1, h2]
      simp)

/-! ### Hierarchical sort: permutation and structure lemmas -/

theorem flattenForest_append (l1 l2 : List TreeNode) :
    flattenForest (l1 ++ l2) = flattenForest l1 ++ flattenForest l2 := by
  induction l1 with
  | nil => simp [flattenForest]
  | cons n rest ih => simp [flattenForest, ih]

theorem toTreeGo_ne_nil : ∀ (bs : List (Block ℚ)) (s : List Frame), s ≠ [] →
    toTreeGo bs s ≠ [] := by
  intro bs
  induction bs with
  | nil => intro s h; simpa [toTreeGo] using h
  | cons b rest ih =>
    intro s h
    obtain ⟨bt, bn, bm, bv, bc⟩ := b
    match s, h with
    | (tb, tcs) :: stail, _ =>
      cases bt with
      | groupStart => exact ih _ (by simp)
      | groupEnd =>
        cases stail with
        | nil => exact ih _ (by simp)
        | cons f2 rest2 =>
          match f2 with
          | (pb, pcs) => exact ih _ (by simp)
      | color => exact ih _ (by simp)

theorem emit_toTreeGo : ∀ (bs : List (Block ℚ)) (s : List Frame), s ≠ [] →
    emitStack (toTreeGo bs s) = emitStack s ++ bs := by
  intro bs
  induction bs with
  | nil => intro s h; simp [toTreeGo]
  | cons b rest ih =>
    intro s h
    obtain ⟨bt, bn, bm, bv, bc⟩ := b
    match s, h with
    | (tb, tcs) :: stail, _ =>
      cases bt with
      | groupStart =>
        show emitStack (toTreeGo rest _) = _
        rw [ih _ (by simp)]
        simp [emitStack, flattenForest]
      | groupEnd =>
        cases stail with
        | nil =>
          show emitStack (toTreeGo rest _) = _
          rw [ih _ (by simp)]
          simp [emitStack, flattenForest_append, flattenForest, flattenNode, leafNode]
        | cons f2 rest2 =>
          match f2 with
          | (pb, pcs) =>
            show emitStack (toTreeGo rest _) = _
            rw [ih _ (by simp)]
            simp [emitStack, flattenForest_append, flattenForest, flattenNode]
      | color =>
        show emitStack (toTreeGo rest _) = _
        rw [ih _ (by simp)]
        simp [emitStack, flattenForest_append, flattenForest, flattenNode, leafNode]

theorem collapse_emit : ∀ (s : List Frame), s ≠ [] →
    ∃ h, emitStack s = h :: flattenForest (collapseStack s) := by
  intro s
  induction s using collapseStack.induct with
  | case1 => intro h; cases h rfl
  | case2 b cs =>
    intro _
    exact ⟨b, by simp [emitStack, collapseStack, flattenForest]⟩
  | case3 gb gcs pb pcs rest ih =>
    intro _
    obtain ⟨h, hh⟩ := ih (by simp)
    refine ⟨h, ?_⟩
    rw [collapseStack]
    have hemit : emitStack ((gb, gcs) :: (pb, pcs) :: rest) =
        emitStack ((pb, pcs ++ [TreeNode.node gb gcs none]) :: rest) := by
      simp [emitStack, flattenForest_append, flattenForest, flattenNode]
    rw [hemit, hh]

theorem flatten_toForest (blocks : List (Block ℚ)) :
    flattenForest (toForest blocks) = blocks := by
  have hne : toTreeGo blocks [(rootBlock, [])] ≠ [] := toTreeGo_ne_nil blocks _ (by simp)
  have hemit : emitStack (toTreeGo blocks [(rootBlock, [])]) =
      emitStack [(rootBlock, [])] ++ blocks := emit_toTreeGo blocks _ (by simp)
  obtain ⟨h, hcol⟩ := collapse_emit (toTreeGo blocks [(rootBlock, [])]) hne
  rw [hemit] at hcol
  simp only [emitStack, flattenForest, List.nil_append, List.cons_append] at hcol
  unfold toForest
  exact (List.cons.injEq _ _ _ _ |>.mp hcol.symm).2

theorem flattenForest_eq_flatMap (l : List TreeNode) :
    flattenForest l = l.flatMap flattenNode := by
  induction l with
  | nil => simp [flattenForest]
  | cons n rest ih => simp [flattenForest, ih]

theorem flattenForest_perm_of_perm {l1 l2 : List TreeNode} (h : List.Perm l1 l2) :
    List.Perm (flattenForest l1) (flattenForest l2) := by
  rw [flattenForest_eq_flatMap, flattenForest_eq_flatMap]
  exact List.Perm.flatMap_right flattenNode h

theorem flatten_sort_perm (cmp : Block ℚ → Block ℚ → Int) :
    ∀ (N : Nat) (f : List TreeNode), sizeOf f ≤ N →
    List.Perm (flattenForest (sortNodes cmp f)) (flattenForest f) ∧
    List.Perm (flattenForest (sortForest cmp f)) (flattenForest f) := by
  intro N
  induction N with
  | zero =>
    intro f hf
    have h1 : 1 ≤ sizeOf f := by cases f <;> simp_arith
    omega
  | succ N ih =>
    intro f hf
    have hA : List.Perm (flattenForest (sortNodes cmp f)) (flattenForest f) := by
      cases f with
      | nil => simp [sortNodes]
      | cons n rest =>
        cases n with
        | node b cs e =>
          have hcs : sizeOf cs ≤ N := by
            simp_arith at hf
            omega
          have hrest : sizeOf rest ≤ N := by
            simp_arith at hf
            omega
          have h1 := (ih cs hcs).2
          have h2 := (ih rest hrest).1
          simp only [sortNodes, sortNode, flattenForest, flattenNode]
          exact List.Perm.cons b ((h1.append_right _).append h2)
    refine ⟨hA, ?_⟩
    have hmerge : List.Perm (List.mergeSort (sortNodes cmp f) (nodeLe cmp)) (sortNodes cmp f) :=
      List.mergeSort_perm _ _
    have hsf : sortForest cmp f = List.mergeSort (sortNodes cmp f) (nodeLe cmp) := by
      rw [sortForest]
    rw [hsf]
    exact (flattenForest_perm_of_perm hmerge).trans hA

/-- The permutation invariant, for any comparator and any input. -/
theorem sortBlocks_perm (cmp : Block ℚ → Block ℚ → Int) (blocks : List (Block ℚ)) :
    List.Perm (sortBlocksHierarchically cmp blocks) blocks := by
  unfold sortBlocksHierarchically
  have h := (flatten_sort_perm cmp (sizeOf (toForest blocks)) (toForest blocks) le_rfl).2
  rw [flatten_toForest] at h
  exact h

theorem wfForest_append (l1 l2 : List TreeNode) (a : Bool) :
    wfForest (l1 ++ l2) a = (wfForest l1 a && wfForest l2 a) := by
  induction l1 with
  | nil => simp [wfForest]
  | cons n rest ih => simp [wfForest, ih, Bool.and_assoc]

theorem stackOk_toTreeGo : ∀ (bs : List (Block ℚ)) (s : List Frame), stackOk s = true →
    stackOk (toTreeGo bs s) = true := by
  intro bs
  induction bs with
  | nil => intro s h; simpa [toTreeGo] using h
  | cons b rest ih =>
    intro s h
    obtain ⟨bt, bn, bm, bv, bc⟩ := b
    match s with
    | [] => simp [stackOk] at h
    | (tb, tcs) :: stail =>
      cases bt with
      | groupStart =>
        refine ih _ ?_
        cases stail with
        | nil =>
          simp only [stackOk, wfForest, wfNode] at h ⊢
          simpa [stackOk] using h
        | cons f2 rest2 =>
          simp only [stackOk] at h ⊢
          simp_all [wfForest, wfNode]
      | groupEnd =>
        cases stail with
        | nil =>
          refine ih _ ?_
          simp only [stackOk] at h ⊢
          rw [wfForest_append]
          simp [h, wfForest, wfNode, leafNode]
        | cons f2 rest2 =>
          match f2 with
          | (pb, pcs) =>
            refine ih _ ?_
            cases rest2 with
            | nil =>
              simp only [stackOk] at h ⊢
              rw [wfForest_append]
              obtain ⟨⟨htb, htcs⟩, hpcs⟩ := by simpa using h
              simp [htb, htcs, hpcs, wfForest, wfNode]
            | cons f3 rest3 =>
              simp only [stackOk] at h ⊢
              obtain ⟨⟨htb, htcs⟩, hrest⟩ := by simpa using h
              rw [wfForest_append]
              simp_all [wfForest, wfNode]
      | color =>
        cases stail with
        | nil =>
          refine ih _ ?_
          simp only [stackOk] at h ⊢
          rw [wfForest_append]
          simp [h, wfForest, wfNode, leafNode]
        | cons f2 rest2 =>
          refine ih _ ?_
          simp only [stackOk] at h ⊢
          obtain ⟨⟨htb, htcs⟩, hrest⟩ := by simpa using h
          rw [wfForest_append]
          simp_all [wfForest, wfNode, leafNode]

theorem wf_toForest (blocks : List (Block ℚ)) (hclosed : closedSeq blocks = true) :
    wfForest (toForest blocks) true = true := by
  have hok : stackOk (toTreeGo blocks [(rootBlock, [])]) = true :=
    stackOk_toTreeGo blocks _ (by simp [stackOk, wfForest])
  unfold closedSeq at hclosed
  unfold toForest
  match hS : toTreeGo blocks [(rootBlock, [])] with
  | [] => rw [hS] at hok; simp [stackOk] at hok
  | [(b, cs)] =>
    rw [hS] at hok
    simpa [stackOk, collapseStack] using hok
  | f1 :: f2 :: rest => rw [hS] at hclosed; simp at hclosed

theorem treeColorDepthsF_eq_flatMap (l : List TreeNode) (d : Nat) :
    treeColorDepthsF l d = l.flatMap (fun n => treeColorDepthsN n d) := by
  induction l with
  | nil => simp [treeColorDepthsF]
  | cons n rest ih => simp [treeColorDepthsF, ih]

theorem treeColorDepthsF_perm_of_perm {l1 l2 : List TreeNode} (h : List.Perm l1 l2) (d : Nat) :
    List.Perm (treeColorDepthsF l1 d) (treeColorDepthsF l2 d) := by
  rw [treeColorDepthsF_eq_flatMap, treeColorDepthsF_eq_flatMap]
  exact List.Perm.flatMap_right _ h

theorem depths_sort_perm (cmp : Block ℚ → Block ℚ → Int) :
    ∀ (N : Nat) (f : List TreeNode), sizeOf f ≤ N → ∀ (d : Nat),
    List.Perm (treeColorDepthsF (sortNodes cmp f) d) (treeColorDepthsF f d) ∧
    List.Perm (treeColorDepthsF (sortForest cmp f) d) (treeColorDepthsF f d) := by
  intro N
  induction N with
  | zero =>
    intro f hf
    have h1 : 1 ≤ sizeOf f := by cases f <;> simp_arith
    omega
  | succ N ih =>
    intro f hf d
    have hA : List.Perm (treeColorDepthsF (sortNodes cmp f) d) (treeColorDepthsF f d) := by
      cases f with
      | nil => simp [sortNodes]
      | cons n rest =>
        cases n with
        | node b cs e =>
          have hcs : sizeOf cs ≤ N := by simp_arith at hf; omega
          have hrest : sizeOf rest ≤ N := by simp_arith at hf; omega
          have h1 := (ih cs hcs (d + 1)).2
          have h2 := (ih rest hrest d).1
          simp only [sortNodes, sortNode, treeColorDepthsF, treeColorDepthsN]
          exact ((h1.append_left _).append h2)
    refine ⟨hA, ?_⟩
    have hsf : sortForest cmp f = List.mergeSort (sortNodes cmp f) (nodeLe cmp) := by
      rw [sortForest]
    rw [hsf]
    exact (treeColorDepthsF_perm_of_perm (List.mergeSort_perm _ _) d).trans hA

theorem scan_flatten : ∀ (N : Nat) (f : List TreeNode), sizeOf f ≤ N →
    ∀ (d : Nat) (more : List (Block ℚ)), wfForest f (d == 0) = true →
    colorDepthsGo (flattenForest f ++ more) d = treeColorDepthsF f d ++ colorDepthsGo more d := by
  intro N
  induction N with
  | zero =>
    intro f hf
    have h1 : 1 ≤ sizeOf f := by cases f <;> simp_arith
    omega
  | succ N ih =>
    intro f hf d more hwf
    cases f with
    | nil => simp [flattenForest, treeColorDepthsF]
    | cons n rest =>
      cases n with
      | node b cs e =>
        have hcs : sizeOf cs ≤ N := by simp_arith at hf; omega
        have hrest : sizeOf rest ≤ N := by simp_arith at hf; omega
        simp only [wfForest] at hwf
        obtain ⟨hwn, hwrest⟩ := by simpa using hwf
        obtain ⟨bt, bn, bm, bv, bc⟩ := b
        cases bt with
        | groupStart =>
          simp only [wfNode] at hwn
          cases e with
          | none => simp at hwn
          | some eb =>
            obtain ⟨hebt, hwcs⟩ := by simpa using hwn
            have hstep : flattenForest (TreeNode.node
                ⟨BlockType.groupStart, bn, bm, bv, bc⟩ cs (some eb) :: rest) ++ more =
                (⟨BlockType.groupStart, bn, bm, bv, bc⟩ : Block ℚ) ::
                  (flattenForest cs ++ (eb :: (flattenForest rest ++ more))) := by
              simp [flattenForest, flattenNode]
            rw [hstep]
            rw [colorDepthsGo]
            have hcs0 : ((d + 1 == 0) : Bool) = false := by simp
            have h1 := ih cs hcs (d + 1) (eb :: (flattenForest rest ++ more))
              (by rw [hcs0]; exact hwcs)
            rw [h1]
            have heb : colorDepthsGo (eb :: (flattenForest rest ++ more)) (d + 1) =
                colorDepthsGo (flattenForest rest ++ more) d := by
              rw [colorDepthsGo]
              rw [hebt]
              simp
            rw [heb, ih rest hrest d more hwrest]
            simp [treeColorDepthsF, treeColorDepthsN]
        | groupEnd =>
          simp only [wfNode] at hwn
          obtain ⟨⟨hd0, hcse⟩, hen⟩ := by simpa using hwn
          have hcs0 : cs = [] := by simpa [List.isEmpty_iff] using hcse
          have he0 : e = none := by simpa [Option.isNone_iff_eq_none] using hen
          subst hcs0 he0
          have hd : d = 0 := by simpa using hd0
          subst hd
          have hstep : flattenForest (TreeNode.node
              ⟨BlockType.groupEnd, bn, bm, bv, bc⟩ [] none :: rest) ++ more =
              (⟨BlockType.groupEnd, bn, bm, bv, bc⟩ : Block ℚ) ::
                (flattenForest rest ++ more) := by
            simp [flattenForest, flattenNode]
          rw [hstep, colorDepthsGo]
          rw [ih rest hrest 0 more hwrest]
          simp [treeColorDepthsF, treeColorDepthsN]
        | color =>
          simp only [wfNode] at hwn
          obtain ⟨hcse, hen⟩ := by simpa using hwn
          have hcs0 : cs = [] := by simpa [List.isEmpty_iff] using hcse
          have he0 : e = none := by simpa [Option.isNone_iff_eq_none] using hen
          subst hcs0 he0
          have hstep : flattenForest (TreeNode.node
              ⟨BlockType.color, bn, bm, bv, bc⟩ [] none :: rest) ++ more =
              (⟨BlockType.color, bn, bm, bv, bc⟩ : Block ℚ) ::
                (flattenForest rest ++ more) := by
            simp [flattenForest, flattenNode]
          rw [hstep, colorDepthsGo]
          rw [ih rest hrest d more hwrest]
          simp [treeColorDepthsF, treeColorDepthsN]

theorem wfForest_all (l : List TreeNode) (a : Bool) :
    wfForest l a = l.all (fun n => wfNode n a) := by
  induction l with
  | nil => simp [wfForest]
  | cons n rest ih => simp [wfForest, ih]

theorem all_eq_of_perm {l1 l2 : List TreeNode} (h : List.Perm l1 l2)
    (p : TreeNode → Bool) : l1.all p = l2.all p := by
  cases h1 : l1.all p with
  | true =>
    symm
    rw [List.all_eq_true] at h1 ⊢
    exact fun x hx => h1 x (h.mem_iff.mpr hx)
  | false =>
    symm
    rw [Bool.eq_false_iff] at h1 ⊢
    intro h2
    rw [List.all_eq_true] at h2
    exact h1 (List.all_eq_true.mpr (fun x hx => h2 x (h.mem_iff.mp hx)))

theorem sortNodes_length (cmp : Block ℚ → Block ℚ → Int) :
    ∀ (f : List TreeNode), (sortNodes cmp f).length = f.length := by
  intro f
  induction f with
  | nil => simp [sortNodes]
  | cons n rest ih => simp [sortNodes, ih]

theorem sortForest_isEmpty (cmp : Block ℚ → Block ℚ → Int) (f : List TreeNode) :
    (sortForest cmp f).isEmpty = f.isEmpty := by
  have h : (sortForest cmp f).length = f.length := by
    have hsf : sortForest cmp f = List.mergeSort (sortNodes cmp f) (nodeLe cmp) := by
      rw [sortForest]
    rw [hsf, List.length_mergeSort, sortNodes_length]
  cases f with
  | nil =>
    cases hs : sortForest cmp [] with
    | nil => simp
    | cons x xs => rw [hs] at h; simp at h
  | cons x xs =>
    cases hs : sortForest cmp (x :: xs) with
    | nil => rw [hs] at h; simp at h
    | cons y ys => simp

theorem wf_sort (cmp : Block ℚ → Block ℚ → Int) :
    ∀ (N : Nat) (f : List TreeNode), sizeOf f ≤ N → ∀ (a : Bool),
    wfForest (sortNodes cmp f) a = wfForest f a ∧
    wfForest (sortForest cmp f) a = wfForest f a := by
  intro N
  induction N with
  | zero =>
    intro f hf
    have h1 : 1 ≤ sizeOf f := by cases f <;> simp_arith
    omega
  | succ N ih =>
    intro f hf a
    have hA : wfForest (sortNodes cmp f) a = wfForest f a := by
      cases f with
      | nil => simp [sortNodes]
      | cons n rest =>
        cases n with
        | node b cs e =>
          have hcs : sizeOf cs ≤ N := by simp_arith at hf; omega
          have hrest : sizeOf rest ≤ N := by simp_arith at hf; omega
          have hnode : wfNode (sortNode cmp (TreeNode.node b cs e)) a =
              wfNode (TreeNode.node b cs e) a := by
            simp only [sortNode, wfNode]
            cases b.type with
            | groupStart =>
              cases e with
              | none => rfl
              | some eb => rw [(ih cs hcs false).2]
            | groupEnd => rw [sortForest_isEmpty]
            | color => rw [sortForest_isEmpty]
          simp only [sortNodes, wfForest, hnode, (ih rest hrest a).1]
    refine ⟨hA, ?_⟩
    have hsf : sortForest cmp f = List.mergeSort (sortNodes cmp f) (nodeLe cmp) := by
      rw [sortForest]
    rw [hsf, wfForest_all, all_eq_of_perm (List.mergeSort_perm _ _), ← wfForest_all, hA]

/-- C3 (amended): for every comparator and every input sequence — balanced
or not — the hierarchical sort returns a permutation of the input (hence
the same total count), treating an orphan `GroupEnd` as a leaf and never
failing; and whenever every `GroupStart` is matched (orphan `GroupEnd`s
still allowed), the multiset of (color block, nesting depth) pairs under
the tolerant scan is preserved, i.e. colors stay at their original
nesting depth. -/
theorem c3_sort_perm_and_depths (cmp : Block ℚ → Block ℚ → Int) (blocks : List (Block ℚ)) :
    List.Perm (sortBlocksHierarchically cmp blocks) blocks ∧
    (closedSeq blocks = true →
      List.Perm (colorDepths (sortBlocksHierarchically cmp blocks)) (colorDepths blocks)) := by
  refine ⟨sortBlocks_perm cmp blocks, fun hclosed => ?_⟩
  have hwf : wfForest (toForest blocks) true = true := wf_toForest blocks hclosed
  have hwfs : wfForest (sortForest cmp (toForest blocks)) true = true := by
    rw [(wf_sort cmp (sizeOf (toForest blocks)) (toForest blocks) le_rfl true).2]
    exact hwf
  have h00 : ((0 == 0) : Bool) = true := by simp
  have hscan1 : colorDepthsGo (flattenForest (sortForest cmp (toForest blocks)) ++ []) 0 =
      treeColorDepthsF (sortForest cmp (toForest blocks)) 0 ++ colorDepthsGo [] 0 :=
    scan_flatten (sizeOf (sortForest cmp (toForest blocks))) _ le_rfl 0 []
      (by rw [h00]; exact hwfs)
  have hscan2 : colorDepthsGo (flattenForest (toForest blocks) ++ []) 0 =
      treeColorDepthsF (toForest blocks) 0 ++ colorDepthsGo [] 0 :=
    scan_flatten (sizeOf (toForest blocks)) _ le_rfl 0 [] (by rw [h00]; exact hwf)
  rw [flatten_toForest] at hscan2
  unfold sortBlocksHierarchically colorDepths
  rw [← List.append_nil (flattenForest (sortForest cmp (toForest blocks))), hscan1]
  rw [← List.append_nil blocks, hscan2]
  simp only [colorDepthsGo, List.append_nil]
  exact (depths_sort_perm cmp (sizeOf (toForest blocks)) (toForest blocks) le_rfl 0).2
/-- C3 (counterexample to the literal claim): on the unbalanced input
`[colB, gsA]` — a color followed by an unclosed `GroupStart` — the sort
moves the color after the group opener, so its tolerant-scan nesting
depth changes from 0 to 1: the depth multiset is not preserved on
unbalanced inputs. -/
theorem c3_unbalanced_input_changes_depth :
    sortBlocksHierarchically compareByName [colB, gsA] = [gsA, colB] ∧
    colorDepths [colB, gsA] = [(colB, 0)] ∧
    colorDepths [gsA, colB] = [(colB, 1)] ∧
    ¬ List.Perm (colorDepths (sortBlocksHierarchically compareByName [colB, gsA]))
        (colorDepths [colB, gsA]) := by
  have h1 : sortBlocksHierarchically compareByName [colB, gsA] = [gsA, colB] := by
    simp [sortBlocksHierarchically, toForest, toTreeGo, collapseStack, sortForest, sortNodes,
      sortNode, flattenForest, flattenNode, leafNode, rootBlock, List.mergeSort, List.merge,
      nodeLe, cmpNodes, TreeNode.blk, colB, gsA, lexCompare, compareByName]
  have h2 : colorDepths ([colB, gsA] : List (Block ℚ)) = [(colB, 0)] := rfl
  have h3 : colorDepths ([gsA, colB] : List (Block ℚ)) = [(colB, 1)] := rfl
  refine ⟨h1, h2, h3, ?_⟩
  rw [h1, h3, h2]
  intro hp
  have h := List.perm_singleton.mp hp
  simp at h

theorem c3_sort_perm_and_depths_witness :
    closedSeq [gsA, colB, geB, colZ] = true ∧
    List.Perm (sortBlocksHierarchically compareByName [gsA, colB, geB, colZ])
      [gsA, colB, geB, colZ] ∧
    List.Perm (colorDepths (sortBlocksHierarchically compareByName [gsA, colB, geB, colZ]))
      (colorDepths [gsA, colB, geB, colZ]) :=
  ⟨rfl,
   (c3_sort_perm_and_depths compareByName [gsA, colB, geB, colZ]).1,
   (c3_sort_perm_and_depths compareByName [gsA, colB, geB, colZ]).2 rfl⟩

theorem lexCompare_total : ∀ (a b : List Nat), lexCompare a b ≤ 0 ∨ lexCompare b a ≤ 0 := by
  intro a
  induction a with
  | nil => intro b; cases b <;> simp [lexCompare]
  | cons x xs ih =>
    intro b
    cases b with
    | nil => right; simp [lexCompare]
    | cons y ys =>
      simp only [lexCompare]
      rcases Nat.lt_trichotomy x y with h | h | h
      · left; rw [if_pos h]; norm_num
      · subst h
        simp only [lt_irrefl, if_false]
        exact ih ys
      · right; rw [if_pos h]; norm_num

theorem lexCompare_trans : ∀ (a b c : List Nat),
    lexCompare a b ≤ 0 → lexCompare b c ≤ 0 → lexCompare a c ≤ 0 := by
  intro a
  induction a with
  | nil => intro b c _ _; cases c <;> simp [lexCompare]
  | cons x xs ih =>
    intro b c hab hbc
    cases b with
    | nil => simp [lexCompare] at hab
    | cons y ys =>
      cases c with
      | nil => simp [lexCompare] at hbc
      | cons z zs =>
        simp only [lexCompare] at hab hbc ⊢
        rcases Nat.lt_trichotomy x y with hxy | hxy | hxy
        · rcases Nat.lt_trichotomy y z with hyz | hyz | hyz
          · rw [if_pos (Nat.lt_trans hxy hyz)]; norm_num
          · subst hyz; rw [if_pos hxy]; norm_num
          · exfalso; rw [if_neg (by omega), if_pos hyz] at hbc; omega
        · subst hxy
          rw [if_neg (lt_irrefl x), if_neg (lt_irrefl x)] at hab
          rcases Nat.lt_trichotomy x z with hxz | hxz | hxz
          · rw [if_pos hxz]; norm_num
          · subst hxz
            rw [if_neg (lt_irrefl x), if_neg (lt_irrefl x)] at hbc
            rw [if_neg (lt_irrefl x), if_neg (lt_irrefl x)]
            exact ih ys zs hab hbc
          · exfalso; rw [if_neg (by omega), if_pos hxz] at hbc; omega
        · exfalso; rw [if_neg (by omega), if_pos hxy] at hab; omega

theorem cmpNodes_total (cmp : Block ℚ → Block ℚ → Int)
    (htot : ∀ x y, cmp x y ≤ 0 ∨ cmp y x ≤ 0) (a b : TreeNode) :
    cmpNodes cmp a b ≤ 0 ∨ cmpNodes cmp b a ≤ 0 := by
  by_cases ha : a.blk.type = BlockType.groupStart <;>
    by_cases hb : b.blk.type = BlockType.groupStart
  · simp only [cmpNodes, ha, hb]; simp
    exact lexCompare_total _ _
  · left; simp only [cmpNodes, ha, hb]; simp
  · right; simp only [cmpNodes, ha, hb]; simp
  · simp only [cmpNodes, ha, hb]; simp
    exact htot _ _

theorem cmpNodes_trans (cmp : Block ℚ → Block ℚ → Int)
    (htrans : ∀ x y z, cmp x y ≤ 0 → cmp y z ≤ 0 → cmp x z ≤ 0)
    (a b c : TreeNode) (hab : cmpNodes cmp a b ≤ 0) (hbc : cmpNodes cmp b c ≤ 0) :
    cmpNodes cmp a c ≤ 0 := by
  by_cases ha : a.blk.type = BlockType.groupStart <;>
    by_cases hb : b.blk.type = BlockType.groupStart <;>
    by_cases hc : c.blk.type = BlockType.groupStart <;>
    simp only [cmpNodes, ha, hb, hc] at hab hbc ⊢ <;> simp at hab hbc ⊢
  · exact lexCompare_trans _ _ _ hab hbc
  · exact htrans _ _ _ hab hbc

theorem nodeLe_total (cmp : Block ℚ → Block ℚ → Int)
    (htot : ∀ x y, cmp x y ≤ 0 ∨ cmp y x ≤ 0) (a b : TreeNode) :
    nodeLe cmp a b || nodeLe cmp b a := by
  simp only [nodeLe, Bool.or_eq_true, decide_eq_true_eq]
  exact cmpNodes_total cmp htot a b

theorem nodeLe_trans (cmp : Block ℚ → Block ℚ → Int)
    (htrans : ∀ x y z, cmp x y ≤ 0 → cmp y z ≤ 0 → cmp x z ≤ 0)
    (a b c : TreeNode) (hab : nodeLe cmp a b) (hbc : nodeLe cmp b c) :
    nodeLe cmp a c := by
  simp only [nodeLe, decide_eq_true_eq] at hab hbc ⊢
  exact cmpNodes_trans cmp htrans a b c hab hbc
theorem mem_sortNodes (cmp : Block ℚ → Block ℚ → Int) :
    ∀ {l : List TreeNode} {n : TreeNode}, n ∈ sortNodes cmp l →
      ∃ m ∈ l, n = sortNode cmp m := by
  intro l
  induction l with
  | nil => intro n h; simp [sortNodes] at h
  | cons m rest ih =>
    intro n h
    simp only [sortNodes, List.mem_cons] at h
    rcases h with h | h
    · exact ⟨m, List.mem_cons_self m rest, h⟩
    · obtain ⟨m', hm', he⟩ := ih h
      exact ⟨m', List.mem_cons_of_mem m hm', he⟩

theorem sortNodes_eq_self (cmp : Block ℚ → Block ℚ → Int) :
    ∀ {l : List TreeNode}, (∀ n ∈ l, sortNode cmp n = n) → sortNodes cmp l = l := by
  intro l
  induction l with
  | nil => intro _; simp [sortNodes]
  | cons m rest ih =>
    intro h
    simp only [sortNodes]
    rw [h m (List.mem_cons_self m rest), ih (fun n hn => h n (List.mem_cons_of_mem m hn))]

theorem sort_idem_fuel (cmp : Block ℚ → Block ℚ → Int)
    (htot : ∀ x y, cmp x y ≤ 0 ∨ cmp y x ≤ 0)
    (htrans : ∀ x y z, cmp x y ≤ 0 → cmp y z ≤ 0 → cmp x z ≤ 0) :
    ∀ (N : Nat),
    (∀ n : TreeNode, sizeOf n ≤ N → sortNode cmp (sortNode cmp n) = sortNode cmp n) ∧
    (∀ f : List TreeNode, sizeOf f ≤ N →
      sortForest cmp (sortForest cmp f) = sortForest cmp f) := by
  intro N
  induction N with
  | zero =>
    constructor
    · intro n hn
      exfalso
      have : 1 ≤ sizeOf n := by cases n <;> simp_arith
      omega
    · intro f hf
      cases f with
      | nil =>
        have h0 : sortForest cmp ([] : List TreeNode) = [] := by
          simp [sortForest, sortNodes]
        rw [h0, h0]
      | cons n rest =>
        exfalso
        have : 1 ≤ sizeOf (n :: rest) := by simp_arith
        omega
  | succ N ih =>
    constructor
    · intro n hn
      cases n with
      | node b cs e =>
        simp only [sortNode]
        have hcs : sizeOf cs ≤ N := by simp_arith at hn; omega
        rw [ih.2 cs hcs]
    · intro f hf
      have hfix : ∀ n ∈ List.mergeSort (sortNodes cmp f) (nodeLe cmp),
          sortNode cmp n = n := by
        intro n hn
        rw [List.mem_mergeSort] at hn
        obtain ⟨m, hm, he⟩ := mem_sortNodes cmp hn
        have hsz : sizeOf m < sizeOf f := List.sizeOf_lt_of_mem hm
        rw [he]
        exact ih.1 m (by omega)
      show sortForest cmp (sortForest cmp f) = sortForest cmp f
      conv_lhs => rw [sortForest, sortForest]
      rw [sortNodes_eq_self cmp hfix]
      rw [List.mergeSort_of_sorted
        (List.sorted_mergeSort (nodeLe_trans cmp htrans) (nodeLe_total cmp htot)
          (sortNodes cmp f))]
      rw [sortForest]

theorem rebuild_toTreeGo : ∀ (N : Nat) (f : List TreeNode), sizeOf f ≤ N →
    ∀ (more : List (Block ℚ)) (tb : Block ℚ) (tcs : List TreeNode) (rest : List Frame),
    wfForest f rest.isEmpty = true →
    toTreeGo (flattenForest f ++ more) ((tb, tcs) :: rest) =
      toTreeGo more ((tb, tcs ++ f) :: rest) := by
  intro N
  induction N with
  | zero =>
    intro f hf more tb tcs rest hwf
    cases f with
    | nil => simp [flattenForest]
    | cons n frest =>
      exfalso
      have : 1 ≤ sizeOf (n :: frest) := by simp_arith
      omega
  | succ N ih =>
    intro f hf more tb tcs rest hwf
    cases f with
    | nil => simp [flattenForest]
    | cons n frest =>
      cases n with
      | node b cs e =>
        have hszcs : sizeOf cs ≤ N := by simp_arith at hf; omega
        have hszfr : sizeOf frest ≤ N := by simp_arith at hf; omega
        simp only [wfForest, Bool.and_eq_true] at hwf
        obtain ⟨hwfn, hwfr⟩ := hwf
        obtain ⟨bt, bn, bm, bv, bc⟩ := b
        cases bt with
        | color =>
          simp only [wfNode, Bool.and_eq_true, List.isEmpty_iff,
            Option.isNone_iff_eq_none] at hwfn
          obtain ⟨hcs, he⟩ := hwfn
          subst hcs he
          simp only [flattenForest, flattenNode, Option.toList, List.append_nil,
            List.nil_append, List.cons_append]
          refine Eq.trans (ih frest hszfr more tb
            (tcs ++ [leafNode ⟨BlockType.color, bn, bm, bv, bc⟩]) rest hwfr) ?_
          simp [leafNode]
        | groupEnd =>
          simp only [wfNode, Bool.and_eq_true, List.isEmpty_iff,
            Option.isNone_iff_eq_none] at hwfn
          obtain ⟨⟨hroot, hcs⟩, he⟩ := hwfn
          subst hcs he
          cases rest with
          | cons f2 rest2 => simp at hroot
          | nil =>
            simp only [flattenForest, flattenNode, Option.toList, List.append_nil,
              List.nil_append, List.cons_append]
            refine Eq.trans (ih frest hszfr more tb
              (tcs ++ [leafNode ⟨BlockType.groupEnd, bn, bm, bv, bc⟩]) [] hwfr) ?_
            simp [leafNode]
        | groupStart =>
          cases e with
          | none => simp [wfNode] at hwfn
          | some eb =>
            simp only [wfNode, Bool.and_eq_true, decide_eq_true_eq] at hwfn
            obtain ⟨hebt, hwfcs⟩ := hwfn
            obtain ⟨et, en, em, ev, ec⟩ := eb
            simp only [Block.type] at hebt
            subst hebt
            simp only [flattenForest, flattenNode, Option.toList, List.cons_append,
              List.append_assoc, List.singleton_append]
            have hstep1 := ih cs hszcs
              (⟨BlockType.groupEnd, en, em, ev, ec⟩ :: (flattenForest frest ++ more))
              ⟨BlockType.groupStart, bn, bm, bv, bc⟩ [] ((tb, tcs) :: rest)
              (by simpa using hwfcs)
            have hstep2 := ih frest hszfr more tb
              (tcs ++ [TreeNode.node ⟨BlockType.groupStart, bn, bm, bv, bc⟩
                ([] ++ cs) (some ⟨BlockType.groupEnd, en, em, ev, ec⟩)]) rest hwfr
            refine Eq.trans (Eq.trans hstep1 hstep2) ?_
            simp

theorem toForest_flattenForest (f : List TreeNode) (hwf : wfForest f true = true) :
    toForest (flattenForest f) = f := by
  unfold toForest
  rw [← List.append_nil (flattenForest f)]
  rw [rebuild_toTreeGo (sizeOf f) f le_rfl [] rootBlock [] [] (by simpa using hwf)]
  simp [toTreeGo, collapseStack]
/-- C9 (counterexample to the literal claim): on the unbalanced input
`[colA, gsA, colZ]` with the name criterion, one sort yields
`[gsA, colZ, colA]` (the unclosed group captures nothing, colors keep
their relative order behind the group), but sorting that output again
yields `[gsA, colA, colZ]`: the colors, now seen as children of the
unclosed group, get reordered — the sort is not idempotent on
unbalanced inputs. -/
theorem c9_unbalanced_not_idempotent :
    sortBlocksHierarchically compareByName [colA, gsA, colZ] = [gsA, colZ, colA] ∧
    sortBlocksHierarchically compareByName [gsA, colZ, colA] = [gsA, colA, colZ] ∧
    sortBlocksHierarchically compareByName
        (sortBlocksHierarchically compareByName [colA, gsA, colZ]) ≠
      sortBlocksHierarchically compareByName [colA, gsA, colZ] := by
  have h1 : sortBlocksHierarchically compareByName [colA, gsA, colZ] = [gsA, colZ, colA] := by
    simp [sortBlocksHierarchically, toForest, toTreeGo, collapseStack, sortForest, sortNodes,
      sortNode, flattenForest, flattenNode, leafNode, rootBlock, List.mergeSort, List.merge,
      nodeLe, cmpNodes, TreeNode.blk, colA, colZ, gsA, lexCompare, compareByName]
  have h2 : sortBlocksHierarchically compareByName [gsA, colZ, colA] = [gsA, colA, colZ] := by
    simp [sortBlocksHierarchically, toForest, toTreeGo, collapseStack, sortForest, sortNodes,
      sortNode, flattenForest, flattenNode, leafNode, rootBlock, List.mergeSort, List.merge,
      nodeLe, cmpNodes, TreeNode.blk, colA, colZ, gsA, lexCompare, compareByName]
  refine ⟨h1, h2, ?_⟩
  rw [h1, h2]
  intro h
  simp [colA, colZ] at h

/-- C9 (amended): the hierarchical sort is idempotent on every sequence
whose `GroupStart`s are all matched (orphan `GroupEnd`s allowed), for
every comparator that is total and transitive as a `≤ 0` relation — in
particular for the `name` criterion.  On unbalanced sequences idempotence
can fail (see the counterexample): an unclosed group captures the
remainder only on the second pass. -/
theorem c9_sort_idempotent_on_closed (cmp : Block ℚ → Block ℚ → Int)
    (blocks : List (Block ℚ)) (hclosed : closedSeq blocks = true)
    (htot : ∀ x y, cmp x y ≤ 0 ∨ cmp y x ≤ 0)
    (htrans : ∀ x y z, cmp x y ≤ 0 → cmp y z ≤ 0 → cmp x z ≤ 0) :
    sortBlocksHierarchically cmp (sortBlocksHierarchically cmp blocks) =
      sortBlocksHierarchically cmp blocks := by
  have hwf : wfForest (toForest blocks) true = true := wf_toForest blocks hclosed
  have hwfs : wfForest (sortForest cmp (toForest blocks)) true = true := by
    rw [(wf_sort cmp (sizeOf (toForest blocks)) (toForest blocks) le_rfl true).2]
    exact hwf
  show flattenForest (sortForest cmp
      (toForest (flattenForest (sortForest cmp (toForest blocks))))) =
    flattenForest (sortForest cmp (toForest blocks))
  rw [toForest_flattenForest _ hwfs]
  rw [(sort_idem_fuel cmp htot htrans (sizeOf (toForest blocks))).2 (toForest blocks) le_rfl]

theorem c9_sort_idempotent_on_closed_witness :
    closedSeq [gsA, colB, geB, colZ] = true ∧
    sortBlocksHierarchically compareByName
        (sortBlocksHierarchically compareByName [gsA, colB, geB, colZ]) =
      sortBlocksHierarchically compareByName [gsA, colB, geB, colZ] :=
  ⟨rfl,
   c9_sort_idempotent_on_closed compareByName [gsA, colB, geB, colZ] rfl
     (fun x y => lexCompare_total (x.name.getD []) (y.name.getD []))
     (fun x y z => lexCompare_trans (x.name.getD []) (y.name.getD []) (z.name.getD []))⟩

end Chroma
